import Mathlib

/-!
# hilbridge: a shallow embedding

Lean model of the Go package `hilbridge` (files `position.go`, `variables.go`,
`errors.go`, `eval.go`, `expression.go`).

Conventions of the embedding:

* Go byte slices and the Go strings that get scanned are lists of bytes
  (`Bytes`); a `nil` slice is the empty list.
* `hcl.Pos` fields are natural numbers (the position model is unsigned);
  `hilast.Pos` keeps signed `Line` and `Column`, because `rangeHILtoHCL`
  tests `pos.Column - 1 < 0`.
* Loops driven by a scanner take a fuel argument and return `none` when the
  fuel runs out; a Go call that returns corresponds to `some _` for all large
  enough fuel.
* The packages this code imports (`hcl.RangeScanner`, `bufio.ScanLines`,
  `hilast` node kinds, `hcl.Traversal.SourceRange`) are embedded from their
  library sources; the grapheme cluster segmentation of `textseg` is a
  parameter `seg`, and so are the parser of `hil`, the checks and the
  execution that `hil.Eval` runs for the node kinds of `hilast`, and the
  traversal application `TraverseAbs` of `hcl`.
* A method with a pointer receiver whose effect on the receiver matters
  (`Expression.Range`) returns the receiver after the call next to its result.
-/

namespace Hilbridge

/-- Byte strings: Go `[]byte` and scanned Go `string` values. -/
abbrev Bytes := List Nat

/-- The bytes of an ASCII string literal. -/
def ascii (s : String) : Bytes := s.toList.map Char.toNat

/-- Position of the new coordinate system, `hcl.Pos`. -/
structure Pos where
  Line : Nat
  Column : Nat
  Byte : Nat
deriving DecidableEq, Repr

/-- Source range, `hcl.Range`. -/
structure Range where
  Filename : String
  Start : Pos
  End : Pos
deriving DecidableEq, Repr

/-- Position of the old coordinate system, `hilast.Pos`. -/
structure HilPos where
  Column : Int
  Line : Int
  Filename : String
deriving DecidableEq, Repr

/-- The zero value `hcl.Pos{}`. -/
def Pos.zero : Pos := ⟨0, 0, 0⟩

/-- The value `hcl.InitialPos`. -/
def InitialPos : Pos := ⟨1, 1, 0⟩

/-! ## Grapheme cluster segmentation (package `textseg`) -/

/-- A segmentation function splits a byte string into the tokens that a
`bufio.Scanner` with split function `textseg.ScanGraphemeClusters` yields. -/
abbrev Segmentation := Bytes → List Bytes

/-- What every run of the grapheme scanner satisfies: the tokens are
non-empty and, put back together, give the scanned bytes. -/
def Segmentation.Lawful (seg : Segmentation) : Prop :=
  ∀ d : Bytes, (seg d).flatten = d ∧ ∀ g ∈ seg d, g ≠ []

/-- On text of single-byte (ASCII) characters without a line feed every
character is a grapheme cluster of its own. -/
def Segmentation.AsciiSingle (seg : Segmentation) : Prop :=
  ∀ d : Bytes, (∀ b ∈ d, b < 128 ∧ b ≠ 10) → (seg d).length = d.length

/-- Whether a byte is a UTF-8 continuation byte (`10xxxxxx`). -/
def isContinuation (b : Nat) : Bool := 128 ≤ b && b < 192

/-- A concrete segmentation used in worked examples: a byte followed by its
UTF-8 continuation bytes forms one unit, and CR LF forms one unit. It agrees
with `textseg.ScanGraphemeClusters` on text without combining sequences. -/
def utf8Clusters : Bytes → List Bytes
  | [] => []
  | b :: rest =>
    match utf8Clusters rest with
    | [] => [[b]]
    | g :: gs =>
      if (g.headD 0 |> isContinuation) then (b :: g) :: gs
      else if b = 13 ∧ g = [10] then [13, 10] :: gs
      else [b] :: g :: gs

/-- The function `textseg.TokenCount(buf, textseg.ScanGraphemeClusters)`:
the number of grapheme clusters (its error result is always nil). -/
def TokenCount (seg : Segmentation) (buf : Bytes) : Nat := (seg buf).length

/-! ## Split functions -/

/-- A `bufio.SplitFunc` called with `atEOF = true`: the advance and the token
(`none` is a nil token). Both split functions used here return a nil error. -/
abbrev SplitFunc := Bytes → Nat × Option Bytes

/-- The function `bytes.IndexByte`, with `none` for `-1`. -/
def IndexByte : Bytes → Nat → Option Nat
  | [], _ => none
  | b :: rest, c => if b = c then some 0 else (IndexByte rest c).map (· + 1)

/-- The function `scanAttrSteps` of `variables.go`, at `atEOF = true`. -/
def scanAttrSteps : SplitFunc := fun data =>
  match IndexByte data 46 with
  | none => (data.length, some data)
  | some idx => (idx, some (data.take idx))

/-- The helper `dropCR` of package `bufio`. -/
def dropCR (data : Bytes) : Bytes :=
  if data.length > 0 ∧ data.getLast? = some 13 then data.take (data.length - 1) else data

/-- The function `bufio.ScanLines`, at `atEOF = true`. -/
def ScanLines : SplitFunc := fun data =>
  if data.length = 0 then (0, none)
  else match IndexByte data 10 with
    | some i => (i + 1, some (dropCR (data.take i)))
    | none => (data.length, some (dropCR data))

/-! ## The range scanner (`hcl.RangeScanner`) -/

/-- State of an `hcl.RangeScanner`; its `err` field stays nil with the split
functions above and is left out. -/
structure RangeScanner where
  filename : String
  b : Bytes
  cb : SplitFunc
  pos : Pos
  cur : Range
  tok : Bytes

/-- The constructor `hcl.NewRangeScannerFragment`. -/
def NewRangeScannerFragment (b : Bytes) (filename : String) (start : Pos) (cb : SplitFunc) :
    RangeScanner :=
  { filename := filename, b := b, cb := cb, pos := start,
    cur := ⟨"", Pos.zero, Pos.zero⟩, tok := [] }

/-- Loop variables of the grapheme loop inside `Scan`. -/
structure Advance where
  new : Pos
  «end» : Pos
  advanced : Nat

/-- One turn of the grapheme loop inside `Scan`, for the cluster `gr`. -/
def advanceStep (tokenLen : Nat) (st : Advance) (gr : Bytes) : Advance :=
  let new1 : Pos := { st.new with Byte := st.new.Byte + gr.length, Column := st.new.Column + 1 }
  let new2 : Pos :=
    if gr.length ≠ 0 ∧ (gr.head? = some 13 ∨ gr.head? = some 10) then
      { new1 with Column := 1, Line := new1.Line + 1 }
    else new1
  { new := new2,
    «end» := if st.advanced < tokenLen then new2 else st.«end»,
    advanced := st.advanced + gr.length }

/-- The method `RangeScanner.Scan`: `none` when it returns false, otherwise
the scanner after the call, with `cur`, `tok` and `pos` updated. It returns
false when `pos.Byte` is at or past the end of the buffer, or when the split
function, given the bytes from `pos.Byte` on, returns advance 0 together with
a nil token. Otherwise it keeps the token, walks the grapheme clusters of the
bytes it advances over to move line, column and byte of the position, and
returns true (also when the advance is 0 and the token is empty but not nil). -/
def RangeScanner.Scan (seg : Segmentation) (sc : RangeScanner) : Option RangeScanner :=
  if sc.pos.Byte ≥ sc.b.length then none
  else
    let data := sc.b.drop sc.pos.Byte
    match sc.cb data with
    | (0, none) => none
    | (advance, token) =>
      let tok := token.getD []
      let adv := data.take advance
      let st := (seg adv).foldl (advanceStep tok.length) ⟨sc.pos, sc.pos, 0⟩
      some { sc with tok := tok, cur := ⟨sc.filename, sc.pos, st.«end»⟩, pos := st.new }

/-! ## Traversals, values and diagnostics (packages `hcl` and `cty`) -/

/-- The part of `cty.Value` this package builds. -/
inductive Value where
  | StringVal (s : Bytes)
  | DynamicVal
deriving DecidableEq, Repr

/-- Traversal steps, `hcl.Traverser`. -/
inductive Traverser where
  | TraverseRoot (Name : Bytes) (SrcRange : Range)
  | TraverseAttr (Name : Bytes) (SrcRange : Range)
  | TraverseIndex (Key : Value) (SrcRange : Range)
  | TraverseSplat (SrcRange : Range)
deriving DecidableEq, Repr

/-- A traversal, `hcl.Traversal`; nil is the empty list. -/
abbrev Traversal := List Traverser

/-- Severity of a diagnostic, `hcl.DiagnosticSeverity`. -/
inductive DiagnosticSeverity where
  | DiagInvalid
  | DiagError
  | DiagWarning
deriving DecidableEq, Repr

/-- A diagnostic, `hcl.Diagnostic`, with the fields this package sets. -/
structure Diagnostic where
  Severity : DiagnosticSeverity
  Summary : String
  Detail : String
  Subject : Option Range
deriving DecidableEq, Repr

/-- A list of diagnostics, `hcl.Diagnostics`; nil is the empty list. -/
abbrev Diagnostics := List Diagnostic

/-- The method `Diagnostics.HasErrors`. -/
def Diagnostics.HasErrors (diags : Diagnostics) : Bool :=
  diags.any (fun d => d.Severity = DiagnosticSeverity.DiagError)

/-! ## variables.go -/

/-- The loop `for sc.Scan() { ... }` of `VariableTraversal`: `none` when the
fuel runs out before `Scan` returns false. -/
def VariableTraversal.loop (seg : Segmentation) : Nat → RangeScanner → Traversal → Option Traversal
  | 0, _, _ => none
  | fuel + 1, sc, ret =>
    match sc.Scan seg with
    | none => some ret
    | some sc1 =>
      let name := sc1.tok
      let rng := sc1.cur
      if ret.length = 0 then
        VariableTraversal.loop seg fuel sc1 (ret ++ [Traverser.TraverseRoot name rng])
      else
        VariableTraversal.loop seg fuel sc1
          (ret ++ [Traverser.TraverseIndex (Value.StringVal name) rng])

/-- The function `VariableTraversal`. -/
def VariableTraversal (seg : Segmentation) (fuel : Nat) (name : Bytes) (rng : Range) :
    Option (Traversal × Diagnostics) :=
  let sc := NewRangeScannerFragment name rng.Filename rng.Start scanAttrSteps
  match VariableTraversal.loop seg fuel sc [] with
  | none => none
  | some ret =>
    if ret.length = 0 then
      some ([], [{ Severity := DiagnosticSeverity.DiagError,
                   Summary := "Empty variable reference",
                   Detail := "There must be at least one character in a variable reference.",
                   Subject := some rng }])
    else some (ret, [])

/-! ## position.go -/

/-- The function `posHCLtoHIL`. -/
def posHCLtoHIL (filename : String) (pos : Pos) : HilPos :=
  { Filename := filename, Line := pos.Line, Column := pos.Column }

/-- The placeholder range returned at the end of `rangeHILtoHCL`. -/
def garbageRange (pos : HilPos) : Range :=
  { Filename := pos.Filename, Start := Pos.zero, End := Pos.zero }

/-- The body of the loop of `rangeHILtoHCL` once a line with the wanted start
line is found; `sc` is the scanner right after `Scan` returned true. -/
def rangeHILtoHCL.onLine (seg : Segmentation) (pos : HilPos) (lineRng : Range)
    (lineSrc : Bytes) : Range :=
  if (lineRng.Start.Line : Int) > pos.Line then garbageRange pos
  else
    let byteOfs : Int := pos.Column - 1
    if byteOfs < 0 then garbageRange pos
    else if byteOfs > (lineSrc.length : Int) then garbageRange pos
    else
      let cols := TokenCount seg (lineSrc.take byteOfs.toNat)
      { Filename := pos.Filename,
        Start := { Line := lineRng.Start.Line,
                   Column := lineRng.Start.Column + cols,
                   Byte := lineRng.Start.Byte + byteOfs.toNat },
        End := lineRng.End }

/-- The loop `for sc.Scan() { ... }` of `rangeHILtoHCL`, followed by the
fall-through return: `none` when the fuel runs out first. -/
def rangeHILtoHCL.loop (seg : Segmentation) (pos : HilPos) : Nat → RangeScanner → Option Range
  | 0, _ => none
  | fuel + 1, sc =>
    match sc.Scan seg with
    | none => some (garbageRange pos)
    | some sc1 =>
      let lineRng := sc1.cur
      if (lineRng.Start.Line : Int) ≠ pos.Line then rangeHILtoHCL.loop seg pos fuel sc1
      else some (rangeHILtoHCL.onLine seg pos lineRng sc1.tok)

/-- The function `rangeHILtoHCL`. -/
def rangeHILtoHCL (seg : Segmentation) (fuel : Nat) (pos : HilPos) (src : Bytes) (srcPos : Pos) :
    Option Range :=
  rangeHILtoHCL.loop seg pos fuel (NewRangeScannerFragment src pos.Filename srcPos ScanLines)

/-- The function `posHILtoHCL`. -/
def posHILtoHCL (seg : Segmentation) (fuel : Nat) (pos : HilPos) (src : Bytes) (srcPos : Pos) :
    Option Pos :=
  (rangeHILtoHCL seg fuel pos src srcPos).map (·.Start)

/-- The scanners after each successful `Scan`, in order, for at most `fuel`
calls. -/
def scanAll (seg : Segmentation) : Nat → RangeScanner → List RangeScanner
  | 0, _ => []
  | fuel + 1, sc =>
    match sc.Scan seg with
    | none => []
    | some sc1 => sc1 :: scanAll seg fuel sc1

/-- The line scan of `src` relative to `srcPos`: range and bytes of every
line that the scanner of `rangeHILtoHCL` yields. Every line takes at least
one byte, so `src.length` calls exhaust the scanner. -/
def lineScan (seg : Segmentation) (filename : String) (src : Bytes) (srcPos : Pos) :
    List (Range × Bytes) :=
  (scanAll seg src.length (NewRangeScannerFragment src filename srcPos ScanLines)).map
    (fun sc => (sc.cur, sc.tok))

/-- The first scanned line whose start line number is `line`. -/
def targetLine (seg : Segmentation) (filename : String) (src : Bytes) (srcPos : Pos)
    (line : Int) : Option (Range × Bytes) :=
  (lineScan seg filename src srcPos).find? (fun l => decide ((l.1.Start.Line : Int) = line))

/-! ## errors.go -/

/-- Errors of the old language: `*hilparser.ParseError`, or any other error
value with the text that its `Error()` method returns. -/
inductive HilError where
  | ParseError (Message : String) (Pos : HilPos)
  | Other (text : String)
deriving DecidableEq, Repr

/-- The function `errorToDiagnostics`; `err = none` is the nil error. -/
def errorToDiagnostics (seg : Segmentation) (fuel : Nat) (err : Option HilError) (src : Bytes)
    (srcPos : Pos) : Option Diagnostics :=
  match err with
  | none => some []
  | some (HilError.ParseError message pos) =>
    match rangeHILtoHCL seg fuel pos src srcPos with
    | none => none
    | some rng =>
      some [{ Severity := DiagnosticSeverity.DiagError,
              Summary := "Error during parsing",
              Detail := "Invalid syntax: " ++ message ++ ".",
              Subject := some rng }]
  | some (HilError.Other text) =>
    some [{ Severity := DiagnosticSeverity.DiagError,
            Summary := "Invalid interpolation",
            Detail := "Failed: " ++ text ++ ".",
            Subject := none }]

/-! ## eval.go and expression.go -/

/-- Handle of an `Expression` object: what a Go `*Expression` points to. -/
abbrev ExprRef := Nat

/-- Types of the old language, `hilast.Type`. -/
inductive HilType where
  | TypeInvalid
  | TypeAny
  | TypeBool
  | TypeString
  | TypeInt
  | TypeFloat
  | TypeList
  | TypeMap
  | TypeUnknown
deriving DecidableEq, Repr

/-- Operators of the old language, `hilast.ArithmeticOp`. -/
inductive ArithmeticOp where
  | ArithmeticOpInvalid
  | ArithmeticOpAdd
  | ArithmeticOpSub
  | ArithmeticOpMul
  | ArithmeticOpDiv
  | ArithmeticOpMod
  | ArithmeticOpLogicalAnd
  | ArithmeticOpLogicalOr
  | ArithmeticOpEqual
  | ArithmeticOpNotEqual
  | ArithmeticOpLessThan
  | ArithmeticOpLessThanOrEqual
  | ArithmeticOpGreaterThan
  | ArithmeticOpGreaterThanOrEqual
deriving DecidableEq, Repr

/-- Tree nodes, `hilast.Node`: the seven node kinds of package `hilast`, and
the two replacement kinds `variableAccessNode` and `functionCallNode` of
`eval.go`. The value of a literal is kept as its source text. -/
inductive Node where
  | Arithmetic (Op : ArithmeticOp) (Exprs : List Node) (Posx : HilPos)
  | Call (Func : String) (Args : List Node) (Posx : HilPos)
  | Conditional (CondExpr TrueExpr FalseExpr : Node) (Posx : HilPos)
  | Index (Target Key : Node) (Posx : HilPos)
  | LiteralNode (Value : String) (Typex : HilType) (Posx : HilPos)
  | Output (Exprs : List Node) (Posx : HilPos)
  | VariableAccess (Name : String) (Posx : HilPos)
  | variableAccessNode (Name : String) (Posx : HilPos) (Expr : ExprRef)
  | functionCallNode (Func : String) (Args : List Node) (Posx : HilPos) (Expr : ExprRef)
deriving Repr

/-- A visitor, `hilast.Visitor`. -/
abbrev Visitor := Node → Node

/-- The function `fixUpASTVisitor`. -/
def fixUpASTVisitor (expr : ExprRef) : Visitor := fun node =>
  match node with
  | Node.VariableAccess name posx => Node.variableAccessNode name posx expr
  | Node.Call func args posx => Node.functionCallNode func args posx expr
  | node => node

mutual
/-- The receiver of an `Accept` call after the call: every child slot has been
overwritten with what `Accept` returned for that child. -/
def Node.acceptChildren (v : Visitor) : Node → Node
  | Node.Arithmetic op exprs posx => Node.Arithmetic op (Node.acceptList v exprs) posx
  | Node.Call func args posx => Node.Call func (Node.acceptList v args) posx
  | Node.Conditional c t f posx =>
    Node.Conditional (v (Node.acceptChildren v c)) (v (Node.acceptChildren v t))
      (v (Node.acceptChildren v f)) posx
  | Node.Index t k posx =>
    Node.Index (v (Node.acceptChildren v t)) (v (Node.acceptChildren v k)) posx
  | Node.LiteralNode value typex posx => Node.LiteralNode value typex posx
  | Node.Output exprs posx => Node.Output (Node.acceptList v exprs) posx
  | Node.VariableAccess name posx => Node.VariableAccess name posx
  | Node.variableAccessNode name posx expr => Node.variableAccessNode name posx expr
  | Node.functionCallNode func args posx expr =>
    Node.functionCallNode func (Node.acceptList v args) posx expr
/-- The loop `for i, a := range xs { xs[i] = a.Accept(v) }`. -/
def Node.acceptList (v : Visitor) : List Node → List Node
  | [] => []
  | a :: rest => v (Node.acceptChildren v a) :: Node.acceptList v rest
end

/-- The method `Accept` of every node kind: the children are visited and
replaced in place, then the visitor is applied to the node itself. -/
def Node.Accept (v : Visitor) (n : Node) : Node := v (Node.acceptChildren v n)

/-- The method `Pos` of every node kind. -/
def Node.Pos : Node → HilPos
  | Node.Arithmetic _ _ posx => posx
  | Node.Call _ _ posx => posx
  | Node.Conditional _ _ _ posx => posx
  | Node.Index _ _ posx => posx
  | Node.LiteralNode _ _ posx => posx
  | Node.Output _ posx => posx
  | Node.VariableAccess _ posx => posx
  | Node.variableAccessNode _ posx _ => posx
  | Node.functionCallNode _ _ posx _ => posx

/-- The type `Expression`. -/
structure Expression where
  node : Node
  src : Bytes
  start : Pos
deriving Repr

/-- The external parser `hil.ParseWithPosition`. -/
abbrev Parser := Bytes → HilPos → Except HilError Node

/-- The function `Parse`. The parser is a parameter, and `self` is the handle
of the `Expression` object that `Parse` allocates. The call
`node.Accept(fixUpASTVisitor(e))` rewrites below `node` in place and its
return value is dropped, so `e.node` is the receiver after the call. -/
def Parse (parser : Parser) (seg : Segmentation) (fuel : Nat) (self : ExprRef) (v : Bytes)
    (filename : String) (start : Pos) : Option (Option Expression × Diagnostics) :=
  match parser v (posHCLtoHIL filename start) with
  | Except.error err =>
    (errorToDiagnostics seg fuel (some err) v start).map (fun diags => (none, diags))
  | Except.ok node =>
    some (some { node := Node.acceptChildren (fixUpASTVisitor self) node, src := v, start := start },
          [])

mutual
/-- Number of `VariableAccess` nodes of the old kind in a tree. -/
def Node.countVariableAccess : Node → Nat
  | Node.Arithmetic _ exprs _ => Node.countVariableAccessList exprs
  | Node.Call _ args _ => Node.countVariableAccessList args
  | Node.Conditional c t f _ =>
    Node.countVariableAccess c + Node.countVariableAccess t + Node.countVariableAccess f
  | Node.Index t k _ => Node.countVariableAccess t + Node.countVariableAccess k
  | Node.LiteralNode _ _ _ => 0
  | Node.Output exprs _ => Node.countVariableAccessList exprs
  | Node.VariableAccess _ _ => 1
  | Node.variableAccessNode _ _ _ => 0
  | Node.functionCallNode _ args _ _ => Node.countVariableAccessList args
/-- Number of `VariableAccess` nodes of the old kind in a list of trees. -/
def Node.countVariableAccessList : List Node → Nat
  | [] => 0
  | a :: rest => Node.countVariableAccess a + Node.countVariableAccessList rest
end

mutual
/-- Number of `Call` nodes of the old kind in a tree. -/
def Node.countCall : Node → Nat
  | Node.Arithmetic _ exprs _ => Node.countCallList exprs
  | Node.Call _ args _ => 1 + Node.countCallList args
  | Node.Conditional c t f _ => Node.countCall c + Node.countCall t + Node.countCall f
  | Node.Index t k _ => Node.countCall t + Node.countCall k
  | Node.LiteralNode _ _ _ => 0
  | Node.Output exprs _ => Node.countCallList exprs
  | Node.VariableAccess _ _ => 0
  | Node.variableAccessNode _ _ _ => 0
  | Node.functionCallNode _ args _ _ => Node.countCallList args
/-- Number of `Call` nodes of the old kind in a list of trees. -/
def Node.countCallList : List Node → Nat
  | [] => 0
  | a :: rest => Node.countCall a + Node.countCallList rest
end

mutual
/-- Number of adapter nodes in a tree whose `Expr` field satisfies `p`. -/
def Node.countAdapter (p : ExprRef → Bool) : Node → Nat
  | Node.Arithmetic _ exprs _ => Node.countAdapterList p exprs
  | Node.Call _ args _ => Node.countAdapterList p args
  | Node.Conditional c t f _ =>
    Node.countAdapter p c + Node.countAdapter p t + Node.countAdapter p f
  | Node.Index t k _ => Node.countAdapter p t + Node.countAdapter p k
  | Node.LiteralNode _ _ _ => 0
  | Node.Output exprs _ => Node.countAdapterList p exprs
  | Node.VariableAccess _ _ => 0
  | Node.variableAccessNode _ _ expr => if p expr then 1 else 0
  | Node.functionCallNode _ args _ expr =>
    (if p expr then 1 else 0) + Node.countAdapterList p args
/-- Number of adapter nodes in a list of trees whose `Expr` field satisfies `p`. -/
def Node.countAdapterList (p : ExprRef → Bool) : List Node → Nat
  | [] => 0
  | a :: rest => Node.countAdapter p a + Node.countAdapterList p rest
end

/-- Whether the root of a tree is a `VariableAccess` or `Call` node of the
old kind. -/
def Node.isOldRoot : Node → Bool
  | Node.VariableAccess _ _ => true
  | Node.Call _ _ _ => true
  | _ => false

/-- The trees that the parser `hil.ParseWithPosition` returns on success: the
root is an `Output` node, or the single literal that the parser hoists out
of it, and the tree is made of the node kinds of package `hilast` only (the
adapter kinds belong to this package). -/
def Node.fromParser : Node → Bool
  | Node.Output exprs _ => Node.countAdapterList (fun _ => true) exprs == 0
  | Node.LiteralNode _ _ _ => true
  | _ => false

/-! ## The evaluator of package `hil`

`Expression.Value` hands the tree to `hil.Eval`, which runs its semantic
checks over the tree in place before it evaluates: a visitor may replace a
child, and the type checker returns a nil node where it records an error. The
trees that `Value` works on are therefore heap trees, whose child slots may
hold nil. The checks that package `hil` runs for its own node kinds and its
evaluation are parameters (`HilLibrary`); the traversal, the order of the
checks and the treatment of node kinds foreign to `hil` are embedded. -/

/-- Trees as they stand on the heap once `hil.Eval` has run over them: the
node kinds of `Node`, and `nil` for a slot in which a visitor stored a nil
node. -/
inductive HeapNode where
  | nil
  | Arithmetic (Op : ArithmeticOp) (Exprs : List HeapNode) (Posx : HilPos)
  | Call (Func : String) (Args : List HeapNode) (Posx : HilPos)
  | Conditional (CondExpr TrueExpr FalseExpr : HeapNode) (Posx : HilPos)
  | Index (Target Key : HeapNode) (Posx : HilPos)
  | LiteralNode (Value : String) (Typex : HilType) (Posx : HilPos)
  | Output (Exprs : List HeapNode) (Posx : HilPos)
  | VariableAccess (Name : String) (Posx : HilPos)
  | variableAccessNode (Name : String) (Posx : HilPos) (Expr : ExprRef)
  | functionCallNode (Func : String) (Args : List HeapNode) (Posx : HilPos) (Expr : ExprRef)
deriving Repr

mutual
/-- The heap tree of a tree in which no slot holds nil. -/
def Node.toHeap : Node → HeapNode
  | Node.Arithmetic op exprs posx => HeapNode.Arithmetic op (Node.toHeapList exprs) posx
  | Node.Call func args posx => HeapNode.Call func (Node.toHeapList args) posx
  | Node.Conditional c t f posx =>
    HeapNode.Conditional (Node.toHeap c) (Node.toHeap t) (Node.toHeap f) posx
  | Node.Index t k posx => HeapNode.Index (Node.toHeap t) (Node.toHeap k) posx
  | Node.LiteralNode value typex posx => HeapNode.LiteralNode value typex posx
  | Node.Output exprs posx => HeapNode.Output (Node.toHeapList exprs) posx
  | Node.VariableAccess name posx => HeapNode.VariableAccess name posx
  | Node.variableAccessNode name posx expr => HeapNode.variableAccessNode name posx expr
  | Node.functionCallNode func args posx expr =>
    HeapNode.functionCallNode func (Node.toHeapList args) posx expr
/-- The heap trees of a list of trees. -/
def Node.toHeapList : List Node → List HeapNode
  | [] => []
  | a :: rest => Node.toHeap a :: Node.toHeapList rest
end

/-- A visitor with state `σ` (the fields of the checker it belongs to): the
state and the node it returns, or `none` when the call does not return. -/
abbrev HeapVisitor (σ : Type) := σ → HeapNode → Option (σ × HeapNode)

/-- The call `v(n)` that ends every `Accept` method, after the children of
`n` were visited. -/
def HeapVisitor.apply {σ : Type} (v : HeapVisitor σ) :
    Option (σ × HeapNode) → Option (σ × HeapNode)
  | none => none
  | some (s, n) => v s n

mutual
/-- The receiver of an `Accept` call after its children were visited and
replaced in place, with the state of the visitor; `none` when the call does
not return. A call of `Accept` on a nil node is a nil dereference and does
not return. -/
def HeapNode.acceptChildren {σ : Type} (v : HeapVisitor σ) : σ → HeapNode → Option (σ × HeapNode)
  | _, HeapNode.nil => none
  | s, HeapNode.Arithmetic op exprs posx =>
    match HeapNode.acceptList v s exprs with
    | none => none
    | some (s1, exprs1) => some (s1, HeapNode.Arithmetic op exprs1 posx)
  | s, HeapNode.Call func args posx =>
    match HeapNode.acceptList v s args with
    | none => none
    | some (s1, args1) => some (s1, HeapNode.Call func args1 posx)
  | s, HeapNode.Conditional c t f posx =>
    match v.apply (HeapNode.acceptChildren v s c) with
    | none => none
    | some (s1, c1) =>
      match v.apply (HeapNode.acceptChildren v s1 t) with
      | none => none
      | some (s2, t1) =>
        match v.apply (HeapNode.acceptChildren v s2 f) with
        | none => none
        | some (s3, f1) => some (s3, HeapNode.Conditional c1 t1 f1 posx)
  | s, HeapNode.Index t k posx =>
    match v.apply (HeapNode.acceptChildren v s t) with
    | none => none
    | some (s1, t1) =>
      match v.apply (HeapNode.acceptChildren v s1 k) with
      | none => none
      | some (s2, k1) => some (s2, HeapNode.Index t1 k1 posx)
  | s, HeapNode.LiteralNode value typex posx => some (s, HeapNode.LiteralNode value typex posx)
  | s, HeapNode.Output exprs posx =>
    match HeapNode.acceptList v s exprs with
    | none => none
    | some (s1, exprs1) => some (s1, HeapNode.Output exprs1 posx)
  | s, HeapNode.VariableAccess name posx => some (s, HeapNode.VariableAccess name posx)
  | s, HeapNode.variableAccessNode name posx expr =>
    some (s, HeapNode.variableAccessNode name posx expr)
  | s, HeapNode.functionCallNode func args posx expr =>
    match HeapNode.acceptList v s args with
    | none => none
    | some (s1, args1) => some (s1, HeapNode.functionCallNode func args1 posx expr)
/-- The loop `for i, a := range xs { xs[i] = a.Accept(v) }` on the heap. -/
def HeapNode.acceptList {σ : Type} (v : HeapVisitor σ) :
    σ → List HeapNode → Option (σ × List HeapNode)
  | s, [] => some (s, [])
  | s, a :: rest =>
    match v.apply (HeapNode.acceptChildren v s a) with
    | none => none
    | some (s1, a1) =>
      match HeapNode.acceptList v s1 rest with
      | none => none
      | some (s2, rest1) => some (s2, a1 :: rest1)
end

/-- The call `root.Accept(v)` of the `Visit` method of a semantic check: the
node that `Accept` returns is dropped, and the root is left with its children
as rewritten; the state is that of the visitor after the whole call. -/
def HeapNode.visitRoot {σ : Type} (v : HeapVisitor σ) (s : σ) (root : HeapNode) :
    Option (σ × HeapNode) :=
  match HeapNode.acceptChildren v s root with
  | none => none
  | some (s1, root1) =>
    match v s1 root1 with
    | none => none
    | some (s2, _) => some (s2, root1)

/-- The field `err` of a semantic check: the sentinel `errExitUnknown`, or an
error with its text. -/
inductive CheckError where
  | exitUnknown
  | failed (text : String)
deriving DecidableEq, Repr

/-- State of the type checker `hil.TypeCheck`: its field `err`, and the rest
of its fields (the type stack) as a value of `S`. -/
structure TypeCheck (S : Type) where
  fields : S
  err : Option CheckError

/-- The variable map of the global scope that `Value` builds. -/
abbrev Scope (Ctx : Type) := List (String × Ctx)

/-- What package `hil` does for its own node kinds, as parameters:
the error of `IdentifierCheck` for a `Call` or `VariableAccess` node, the type
check of a node of one of the seven kinds of `hilast` (new state and the node
to put in its place, or `none` when it does not return), the fields of a
fresh type checker, the text of the "unknown node for type check" error for
a node (it names the position and prints the node), and the execution of a
checked tree (result or error together with the tree as left, or `none` when
it does not return). -/
structure HilLibrary (Ctx R S : Type) where
  identifierError : Scope Ctx → HeapNode → Option String
  typeCheck : Scope Ctx → TypeCheck S → HeapNode → Option (TypeCheck S × HeapNode)
  newTypeCheck : Scope Ctx → S
  unknownNodeText : HeapNode → String
  execute : Scope Ctx → HeapNode → Option (Except HilError R × HeapNode)

/-- The method `IdentifierCheck.visit` of package `hil`; the state is the
field `err`. It never replaces a node, and it ignores every node that is not
a `Call` or a `VariableAccess`. -/
def IdentifierCheck.visit {Ctx R S : Type} (lib : HilLibrary Ctx R S) (scope : Scope Ctx) :
    HeapVisitor (Option String)
  | some err, raw => some (some err, raw)
  | none, HeapNode.Call func args posx =>
    some (lib.identifierError scope (HeapNode.Call func args posx),
          HeapNode.Call func args posx)
  | none, HeapNode.VariableAccess name posx =>
    some (lib.identifierError scope (HeapNode.VariableAccess name posx),
          HeapNode.VariableAccess name posx)
  | none, raw => some (none, raw)

/-- The method `TypeCheck.visit` of package `hil`. Once an error is recorded
it returns every node as it is. A node of a kind of `hilast` goes to the
checker of its kind. Any other node that has no `TypeCheck` method, as the two
adapter kinds of this package, is an "unknown node for type check": the error
is recorded and the result, never assigned, is the nil node. -/
def TypeCheck.visit {Ctx R S : Type} (lib : HilLibrary Ctx R S) (scope : Scope Ctx) :
    HeapVisitor (TypeCheck S)
  | v, raw =>
    if v.err.isSome then some (v, raw)
    else
      match raw with
      | HeapNode.nil => none
      | HeapNode.variableAccessNode name posx expr =>
        some ({ v with err := some (CheckError.failed
                  (lib.unknownNodeText (HeapNode.variableAccessNode name posx expr))) },
              HeapNode.nil)
      | HeapNode.functionCallNode func args posx expr =>
        some ({ v with err := some (CheckError.failed
                  (lib.unknownNodeText (HeapNode.functionCallNode func args posx expr))) },
              HeapNode.nil)
      | raw => lib.typeCheck scope v raw

/-- The function `hil.Eval` as `Value` calls it, with no semantic checks of
the caller: the identifier check, then the type check, each over the tree in
place and each ending the call with its error, then the execution. The result
comes with the tree as the call leaves it; `none` when the call does not
return. -/
def Eval {Ctx R S : Type} (lib : HilLibrary Ctx R S) (root : HeapNode) (scope : Scope Ctx) :
    Option (Except HilError R × HeapNode) :=
  match HeapNode.visitRoot (IdentifierCheck.visit lib scope) none root with
  | none => none
  | some (some text, root1) => some (Except.error (HilError.Other text), root1)
  | some (none, root1) =>
    match HeapNode.visitRoot (TypeCheck.visit lib scope)
        { fields := lib.newTypeCheck scope, err := none } root1 with
    | none => none
    | some (checker, root2) =>
      match checker.err with
      | some (CheckError.failed text) => some (Except.error (HilError.Other text), root2)
      | _ => lib.execute scope root2

/-- An `Expression` object on the heap, as `Parse` and calls of `Value` leave
it: `src` and `start` are never assigned again, the tree under `node` is
rewritten in place by `hil.Eval`. -/
structure HeapExpression where
  node : HeapNode
  src : Bytes
  start : Pos
deriving Repr

/-- The heap object of an `Expression` that `Parse` returned. -/
def Expression.toHeap (e : Expression) : HeapExpression :=
  { node := e.node.toHeap, src := e.src, start := e.start }

/-- The method `Expression.Value` on an expression in any state: the value
and diagnostics it returns together with the receiver after the call, or
`none` when the call does not return. -/
def HeapExpression.Value {Ctx R S : Type} (lib : HilLibrary Ctx R S) (seg : Segmentation)
    (fuel : Nat) (e : HeapExpression) (ctx : Ctx) :
    Option ((Value × Diagnostics) × HeapExpression) :=
  match Eval lib e.node [("ctx", ctx)] with
  | none => none
  | some (Except.error err, node1) =>
    (errorToDiagnostics seg fuel (some err) e.src e.start).map
      (fun diags => ((Value.DynamicVal, diags), { e with node := node1 }))
  | some (Except.ok _, node1) => some ((Value.DynamicVal, []), { e with node := node1 })

/-- The method `Expression.Value`, called on an expression as `Parse` returned
it. -/
def Expression.Value {Ctx R S : Type} (lib : HilLibrary Ctx R S) (seg : Segmentation)
    (fuel : Nat) (e : Expression) (ctx : Ctx) :
    Option ((Value × Diagnostics) × HeapExpression) :=
  e.toHeap.Value lib seg fuel ctx

/-- The method `Expression.Variables`. -/
def Expression.Variables (_e : Expression) : List Traversal := []

/-- The method `Expression.Range`: the returned range together with the
receiver after the call (the method assigns to no field). -/
def Expression.Range (seg : Segmentation) (fuel : Nat) (e : Expression) :
    Option (Range × Expression) :=
  (rangeHILtoHCL seg fuel e.node.Pos e.src e.start).map (fun rng => (rng, e))

/-- The method `Expression.StartRange`. -/
def Expression.StartRange (seg : Segmentation) (fuel : Nat) (e : Expression) :
    Option (Hilbridge.Range × Expression) :=
  e.Range seg fuel

/-! ## variables.go: lookup expressions -/

/-- The method `SourceRange` of a traversal step. -/
def Traverser.SourceRange : Traverser → Range
  | Traverser.TraverseRoot _ rng => rng
  | Traverser.TraverseAttr _ rng => rng
  | Traverser.TraverseIndex _ rng => rng
  | Traverser.TraverseSplat rng => rng

/-- The function `hcl.RangeBetween`. -/
def RangeBetween (start stop : Range) : Range :=
  { Filename := start.Filename, Start := start.Start, End := stop.End }

/-- The method `Traversal.SourceRange` of package `hcl`. -/
def Traversal.SourceRange (t : Traversal) : Range :=
  match t.head?, t.getLast? with
  | some first, some last => RangeBetween first.SourceRange last.SourceRange
  | _, _ => { Filename := "", Start := Pos.zero, End := Pos.zero }

/-- The external method `Traversal.TraverseAbs` of package `hcl`, which
applies an absolute traversal to an evaluation context. -/
abbrev TraverseAbs (Ctx : Type) := Traversal → Ctx → Value × Diagnostics

/-- The type `variableLookupExpr`. -/
structure variableLookupExpr where
  traversal : Traversal
deriving DecidableEq, Repr

/-- The method `variableLookupExpr.Value`. -/
def variableLookupExpr.Value {Ctx : Type} (traverseAbs : TraverseAbs Ctx)
    (e : variableLookupExpr) (ctx : Ctx) : Value × Diagnostics :=
  traverseAbs e.traversal ctx

/-- The method `variableLookupExpr.Variables`. -/
def variableLookupExpr.Variables (e : variableLookupExpr) : List Traversal := [e.traversal]

/-- The method `variableLookupExpr.StartRange`. -/
def variableLookupExpr.StartRange (e : variableLookupExpr) : Range := e.traversal.SourceRange

/-- The method `variableLookupExpr.Range`. -/
def variableLookupExpr.Range (e : variableLookupExpr) : Range := e.traversal.SourceRange

/-- The type `failExpr`. -/
structure failExpr where
  diags : Diagnostics
  rng : Range
deriving DecidableEq, Repr

/-- The method `failExpr.Value`. -/
def failExpr.Value {Ctx : Type} (e : failExpr) (_ctx : Ctx) : Value × Diagnostics :=
  (Value.DynamicVal, e.diags)

/-- The method `failExpr.Variables`. -/
def failExpr.Variables (_e : failExpr) : List Traversal := []

/-- The method `failExpr.StartRange`. -/
def failExpr.StartRange (e : failExpr) : Range := e.rng

/-- The method `failExpr.Range`. -/
def failExpr.Range (e : failExpr) : Range := e.rng

/-- The values of interface type `hcl.Expression` that `VariableLookupExpr`
returns: a `variableLookupExpr` or a pointer to a `failExpr`. -/
inductive LookupExpression where
  | lookup (e : variableLookupExpr)
  | fail (e : failExpr)
deriving DecidableEq, Repr

/-- Method `Value` of the interface, dispatched on the dynamic type. -/
def LookupExpression.Value {Ctx : Type} (traverseAbs : TraverseAbs Ctx) :
    LookupExpression → Ctx → Value × Diagnostics
  | LookupExpression.lookup e, ctx => e.Value traverseAbs ctx
  | LookupExpression.fail e, ctx => e.Value ctx

/-- Method `Variables` of the interface, dispatched on the dynamic type. -/
def LookupExpression.Variables : LookupExpression → List Traversal
  | LookupExpression.lookup e => e.Variables
  | LookupExpression.fail e => e.Variables

/-- Method `StartRange` of the interface, dispatched on the dynamic type. -/
def LookupExpression.StartRange : LookupExpression → Range
  | LookupExpression.lookup e => e.StartRange
  | LookupExpression.fail e => e.StartRange

/-- Method `Range` of the interface, dispatched on the dynamic type. -/
def LookupExpression.Range : LookupExpression → Range
  | LookupExpression.lookup e => e.Range
  | LookupExpression.fail e => e.Range

/-- The function `VariableLookupExpr`: `none` when `VariableTraversal` does
not return within the fuel. -/
def VariableLookupExpr (seg : Segmentation) (fuel : Nat) (name : Bytes) (rng : Range) :
    Option LookupExpression :=
  match VariableTraversal seg fuel name rng with
  | none => none
  | some (traversal, diags) =>
    if diags.HasErrors then some (LookupExpression.fail { diags := diags, rng := rng })
    else some (LookupExpression.lookup { traversal := traversal })

/-- Whether a traversal step is a root-name step. -/
def Traverser.isRoot : Traverser → Bool
  | Traverser.TraverseRoot _ _ => true
  | _ => false

/-- Whether a traversal step is an index step whose key is a string. -/
def Traverser.isStringIndex : Traverser → Bool
  | Traverser.TraverseIndex (Value.StringVal _) _ => true
  | _ => false

/-- Whether a traversal is a root-name step followed by index steps with
string keys only. -/
def Traversal.rootThenIndexes : Traversal → Bool
  | [] => false
  | first :: rest => first.isRoot && rest.all Traverser.isStringIndex

/-- A law of grapheme segmentation used for line starts: a line feed ends a
cluster that is either the line feed alone or CR LF, so the last cluster of
text that ends in a line feed starts with CR or LF. -/
def Segmentation.NewlineBreak (seg : Segmentation) : Prop :=
  ∀ d : Bytes, d.getLast? = some 10 →
    ∃ g, (seg d).getLast? = some g ∧ (g.head? = some 13 ∨ g.head? = some 10)

/-! ## The range scanner: progress and the split functions -/

theorem IndexByte_lt (c : Nat) : ∀ (data : Bytes) (i : Nat), IndexByte data c = some i → i < data.length
  | [], i, h => by simp [IndexByte] at h
  | b :: rest, i, h => by
    unfold IndexByte at h
    split at h
    · cases h; simp
    · cases hr : IndexByte rest c with
      | none => simp [hr] at h
      | some j =>
        simp [hr] at h
        have := IndexByte_lt c rest j hr
        subst h
        simp
        omega

theorem advance_fold_byte (n : Nat) : ∀ (l : List Bytes) (st : Advance),
    (l.foldl (advanceStep n) st).new.Byte = st.new.Byte + l.flatten.length
  | [], st => by simp
  | g :: gs, st => by
    rw [List.foldl_cons, advance_fold_byte n gs]
    have : (advanceStep n st g).new.Byte = st.new.Byte + g.length := by
      unfold advanceStep
      dsimp only
      split <;> rfl
    rw [this]
    simp
    omega

/-- The scanner that a successful `Scan` leaves behind, for advance `a` and token `t`. -/
theorem Scan_of_token (seg : Segmentation) (sc : RangeScanner) (a : Nat) (t : Bytes)
    (hlt : sc.pos.Byte < sc.b.length) (hcb : sc.cb (sc.b.drop sc.pos.Byte) = (a, some t)) :
    sc.Scan seg = some
      { sc with
        tok := t
        cur := ⟨sc.filename, sc.pos,
          ((seg ((sc.b.drop sc.pos.Byte).take a)).foldl (advanceStep t.length)
            ⟨sc.pos, sc.pos, 0⟩).«end»⟩
        pos := ((seg ((sc.b.drop sc.pos.Byte).take a)).foldl (advanceStep t.length)
            ⟨sc.pos, sc.pos, 0⟩).new } := by
  unfold RangeScanner.Scan
  rw [if_neg (by omega)]
  simp only [hcb]
  rfl

theorem Scan_none_of_ge (seg : Segmentation) (sc : RangeScanner) (h : sc.b.length ≤ sc.pos.Byte) :
    sc.Scan seg = none := by
  unfold RangeScanner.Scan
  rw [if_pos h]

theorem ScanLines_advance (data : Bytes) (h : data ≠ []) :
    ∃ a t, ScanLines data = (a, some t) ∧ 0 < a ∧ a ≤ data.length := by
  unfold ScanLines
  have hl : data.length ≠ 0 := by simpa using h
  rw [if_neg hl]
  cases hi : IndexByte data 10 with
  | none => exact ⟨_, _, rfl, by omega, le_refl _⟩
  | some i =>
    have := IndexByte_lt 10 data i hi
    exact ⟨_, _, rfl, by omega, by omega⟩

theorem Scan_lines_some (seg : Segmentation) (hseg : seg.Lawful) (sc sc1 : RangeScanner)
    (hcb : sc.cb = ScanLines) (h : sc.Scan seg = some sc1) :
    sc1.cb = ScanLines ∧ sc1.b = sc.b ∧ sc1.filename = sc.filename ∧
      sc.pos.Byte < sc1.pos.Byte ∧ sc.pos.Byte < sc.b.length := by
  by_cases hlt : sc.pos.Byte < sc.b.length
  · have hne : sc.b.drop sc.pos.Byte ≠ [] := by
      intro h0
      have := congrArg List.length h0
      simp at this
      omega
    obtain ⟨a, t, he, ha, hle⟩ := ScanLines_advance _ hne
    rw [Scan_of_token seg sc a t hlt (by rw [hcb, he])] at h
    cases h
    refine ⟨hcb, rfl, rfl, ?_, hlt⟩
    simp only [advance_fold_byte, (hseg _).1]
    simp at hle ⊢
    omega
  · rw [Scan_none_of_ge seg sc (by omega)] at h
    cases h

/-! ## The concrete segmentation is lawful -/

theorem utf8Clusters_lawful : Segmentation.Lawful utf8Clusters := by
  intro d
  induction d with
  | nil => simp [utf8Clusters]
  | cons b rest ih =>
    unfold utf8Clusters
    cases h : utf8Clusters rest with
    | nil =>
      rw [h] at ih
      simp at ih
      simp [← ih]
    | cons g gs =>
      rw [h] at ih
      obtain ⟨hflat, hne⟩ := ih
      simp only [List.flatten_cons] at hflat
      simp only
      split
      · refine ⟨by simp [← hflat], ?_⟩
        intro x hx
        simp only [List.mem_cons] at hx
        rcases hx with rfl | hx
        · simp
        · exact hne x (by simp [hx])
      · split
        · rename_i hcr
          obtain ⟨hb, hg⟩ := hcr
          subst hb hg
          refine ⟨by simp [← hflat], ?_⟩
          intro x hx
          simp only [List.mem_cons] at hx
          rcases hx with rfl | hx
          · simp
          · exact hne x (by simp [hx])
        · refine ⟨by simp [← hflat], ?_⟩
          intro x hx
          simp only [List.mem_cons] at hx
          rcases hx with rfl | rfl | hx
          · simp
          · exact hne _ (by simp)
          · exact hne x (by simp [hx])

theorem utf8Clusters_asciiSingle : Segmentation.AsciiSingle utf8Clusters := by
  intro d
  induction d with
  | nil => simp [utf8Clusters]
  | cons b rest ih =>
    intro hd
    have hrest : ∀ x ∈ rest, x < 128 ∧ x ≠ 10 := fun x hx => hd x (by simp [hx])
    have ih1 := ih hrest
    unfold utf8Clusters
    cases h : utf8Clusters rest with
    | nil =>
      rw [h] at ih1
      simp at ih1 ⊢
      exact List.length_eq_zero.mp ih1.symm
    | cons g gs =>
      rw [h] at ih1
      obtain ⟨hflat, hne⟩ := utf8Clusters_lawful rest
      rw [h] at hflat hne
      have hg : g ≠ [] := hne g (by simp)
      obtain ⟨x, xs, rfl⟩ := List.exists_cons_of_ne_nil hg
      have hxmem : x ∈ rest := by rw [← hflat]; simp
      have hx := hrest x hxmem
      simp only
      rw [if_neg (by simp [isContinuation]; omega)]
      rw [if_neg (by
        rintro ⟨_, hcons⟩
        simp at hcons
        omega)]
      simp at ih1 ⊢
      omega

/-! ## The loop of `rangeHILtoHCL` -/

theorem loop_eq_find (seg : Segmentation) (hseg : seg.Lawful) (pos : HilPos) :
    ∀ (fuel fuel2 : Nat) (sc : RangeScanner), sc.cb = ScanLines →
      sc.b.length - sc.pos.Byte < fuel → sc.b.length - sc.pos.Byte ≤ fuel2 →
      rangeHILtoHCL.loop seg pos fuel sc =
        some (match (scanAll seg fuel2 sc).find?
                  (fun s => decide ((s.cur.Start.Line : Int) = pos.Line)) with
              | none => garbageRange pos
              | some s => rangeHILtoHCL.onLine seg pos s.cur s.tok)
  | 0, _, _, _, h, _ => by omega
  | fuel + 1, fuel2, sc, hcb, h1, h2 => by
    unfold rangeHILtoHCL.loop
    cases hs : sc.Scan seg with
    | none =>
      cases fuel2 with
      | zero => simp [scanAll]
      | succ f2 => simp [scanAll, hs]
    | some sc1 =>
      obtain ⟨hcb1, hb, _, hlt, hlen⟩ := Scan_lines_some seg hseg sc sc1 hcb hs
      cases fuel2 with
      | zero => omega
      | succ f2 =>
        have ih := loop_eq_find seg hseg pos fuel f2 sc1 hcb1 (by rw [hb]; omega) (by rw [hb]; omega)
        simp only [scanAll, hs]
        by_cases hline : (sc1.cur.Start.Line : Int) = pos.Line
        · simp [hline]
        · simp only [ne_eq, hline, not_false_eq_true, ↓reduceIte, ih, List.find?_cons, decide_False]

/-- Once the fuel covers the bytes left to scan, more fuel does not change
what `scanAll` yields: `lineScan` lists every line of the scan. -/
theorem scanAll_fuel (seg : Segmentation) (hseg : seg.Lawful) :
    ∀ (fuel fuel2 : Nat) (sc : RangeScanner), sc.cb = ScanLines →
      sc.b.length - sc.pos.Byte ≤ fuel → sc.b.length - sc.pos.Byte ≤ fuel2 →
      scanAll seg fuel sc = scanAll seg fuel2 sc
  | 0, fuel2, sc, _, h1, _ => by
    have hs := Scan_none_of_ge seg sc (by omega)
    cases fuel2 with
    | zero => rfl
    | succ f2 => simp only [scanAll, hs]
  | fuel + 1, 0, sc, _, _, h2 => by
    have hs := Scan_none_of_ge seg sc (by omega)
    simp only [scanAll, hs]
  | fuel + 1, f2 + 1, sc, hcb, h1, h2 => by
    unfold scanAll
    cases hs : sc.Scan seg with
    | none => rfl
    | some sc1 =>
      obtain ⟨hcb1, hb, _, hlt, hlen⟩ := Scan_lines_some seg hseg sc sc1 hcb hs
      simp only
      rw [scanAll_fuel seg hseg fuel f2 sc1 hcb1 (by rw [hb]; omega) (by rw [hb]; omega)]

theorem rangeHILtoHCL_eq (seg : Segmentation) (hseg : seg.Lawful) (fuel : Nat) (pos : HilPos)
    (src : Bytes) (srcPos : Pos) (hfuel : src.length < fuel) :
    rangeHILtoHCL seg fuel pos src srcPos =
      some (match targetLine seg pos.Filename src srcPos pos.Line with
            | none => garbageRange pos
            | some l => rangeHILtoHCL.onLine seg pos l.1 l.2) := by
  unfold rangeHILtoHCL targetLine lineScan
  rw [loop_eq_find seg hseg pos fuel src.length _ rfl
    (by simp only [NewRangeScannerFragment]; omega) (by simp only [NewRangeScannerFragment]; omega)]
  rw [List.find?_map]
  have hfun : ((fun l : Range × Bytes => decide ((l.1.Start.Line : Int) = pos.Line)) ∘
      (fun sc : RangeScanner => (sc.cur, sc.tok))) =
      (fun s => decide ((s.cur.Start.Line : Int) = pos.Line)) := rfl
  rw [hfun]
  cases (scanAll seg src.length (NewRangeScannerFragment src pos.Filename srcPos ScanLines)).find?
    (fun s => decide ((s.cur.Start.Line : Int) = pos.Line)) <;> rfl

theorem clusters_length_le : ∀ (l : List Bytes), (∀ g ∈ l, g ≠ []) → l.length ≤ l.flatten.length
  | [], _ => by simp
  | g :: gs, h => by
    have ih := clusters_length_le gs (fun x hx => h x (by simp [hx]))
    have hg : g ≠ [] := h g (by simp)
    have : 0 < g.length := List.length_pos.mpr hg
    simp only [List.flatten_cons, List.length_append, List.length_cons]
    omega

theorem clusters_length_lt : ∀ (l : List Bytes), (∀ g ∈ l, g ≠ []) → (∃ g ∈ l, 2 ≤ g.length) →
    l.length < l.flatten.length
  | [], _, h => by simp at h
  | g :: gs, h, hex => by
    have hgs : ∀ x ∈ gs, x ≠ [] := fun x hx => h x (by simp [hx])
    have hg : 0 < g.length := List.length_pos.mpr (h g (by simp))
    obtain ⟨x, hx, hx2⟩ := hex
    simp only [List.mem_cons] at hx
    rcases hx with rfl | hx
    · have := clusters_length_le gs hgs
      simp only [List.flatten_cons, List.length_append, List.length_cons]
      omega
    · have := clusters_length_lt gs hgs ⟨x, hx, hx2⟩
      simp only [List.flatten_cons, List.length_append, List.length_cons]
      omega

theorem IndexByte_none (c : Nat) : ∀ (data : Bytes), IndexByte data c = none → c ∉ data
  | [], _ => by simp
  | b :: rest, h => by
    unfold IndexByte at h
    split at h
    · cases h
    · rename_i hbc
      have hr : IndexByte rest c = none := by
        cases hi : IndexByte rest c with
        | none => rfl
        | some j => simp [hi] at h
      have := IndexByte_none c rest hr
      simp only [List.mem_cons, not_or]
      exact ⟨fun hcb => hbc hcb.symm, this⟩

theorem IndexByte_take (c : Nat) : ∀ (data : Bytes) (i : Nat), IndexByte data c = some i →
    c ∉ data.take i
  | [], i, h => by simp
  | b :: rest, i, h => by
    unfold IndexByte at h
    split at h
    · cases h; simp
    · rename_i hbc
      cases hi : IndexByte rest c with
      | none => simp [hi] at h
      | some j =>
        simp [hi] at h
        subst h
        have := IndexByte_take c rest j hi
        simp only [List.take_succ_cons, List.mem_cons, not_or]
        exact ⟨fun hcb => hbc hcb.symm, this⟩

theorem dropCR_mem (data : Bytes) (x : Nat) (h : x ∈ dropCR data) : x ∈ data := by
  unfold dropCR at h
  split at h
  · exact List.mem_of_mem_take h
  · exact h

theorem ScanLines_token (data : Bytes) (a : Nat) (t : Bytes) (h : ScanLines data = (a, some t)) :
    ∀ x ∈ t, x ∈ data ∧ x ≠ 10 := by
  unfold ScanLines at h
  split at h
  · cases h
  · cases hi : IndexByte data 10 with
    | none =>
      rw [hi] at h
      simp only [Prod.mk.injEq, Option.some.injEq] at h
      obtain ⟨_, rfl⟩ := h
      intro x hx
      have hxd := dropCR_mem data x hx
      refine ⟨hxd, ?_⟩
      rintro rfl
      exact IndexByte_none 10 data hi hxd
    | some i =>
      rw [hi] at h
      simp only [Prod.mk.injEq, Option.some.injEq] at h
      obtain ⟨_, rfl⟩ := h
      intro x hx
      have hxd := dropCR_mem _ x hx
      refine ⟨List.mem_of_mem_take hxd, ?_⟩
      rintro rfl
      exact IndexByte_take 10 data i hi hxd

theorem Scan_lines_tok (seg : Segmentation) (sc sc1 : RangeScanner)
    (hcb : sc.cb = ScanLines) (h : sc.Scan seg = some sc1) :
    ∀ x ∈ sc1.tok, x ∈ sc.b ∧ x ≠ 10 := by
  by_cases hlt : sc.pos.Byte < sc.b.length
  · have hne : sc.b.drop sc.pos.Byte ≠ [] := by
      intro h0
      have := congrArg List.length h0
      simp at this
      omega
    obtain ⟨a, t, he, _, _⟩ := ScanLines_advance _ hne
    rw [Scan_of_token seg sc a t hlt (by rw [hcb, he])] at h
    cases h
    intro x hx
    have := ScanLines_token _ a t he x hx
    exact ⟨List.mem_of_mem_drop this.1, this.2⟩
  · rw [Scan_none_of_ge seg sc (by omega)] at h
    cases h

theorem scanAll_tok (seg : Segmentation) (hseg : seg.Lawful) :
    ∀ (fuel : Nat) (sc : RangeScanner), sc.cb = ScanLines →
      ∀ s ∈ scanAll seg fuel sc, ∀ x ∈ s.tok, x ∈ sc.b ∧ x ≠ 10
  | 0, _, _ => by simp [scanAll]
  | fuel + 1, sc, hcb => by
    unfold scanAll
    cases hs : sc.Scan seg with
    | none => simp
    | some sc1 =>
      obtain ⟨hcb1, hb, _, _, _⟩ := Scan_lines_some seg hseg sc sc1 hcb hs
      intro s hmem
      simp only [List.mem_cons] at hmem
      rcases hmem with rfl | hmem
      · exact Scan_lines_tok seg sc s hcb hs
      · have := scanAll_tok seg hseg fuel sc1 hcb1 s hmem
        rw [hb] at this
        exact this

theorem targetLine_bytes (seg : Segmentation) (hseg : seg.Lawful) (filename : String)
    (src : Bytes) (srcPos : Pos) (line : Int) (l : Range × Bytes)
    (h : targetLine seg filename src srcPos line = some l) :
    ∀ x ∈ l.2, x ∈ src ∧ x ≠ 10 := by
  unfold targetLine at h
  have hmem := List.mem_of_find?_eq_some h
  unfold lineScan at hmem
  simp only [List.mem_map] at hmem
  obtain ⟨s, hs, rfl⟩ := hmem
  exact scanAll_tok seg hseg src.length _ rfl s hs

/-! ## Position translation: C2, C4, C5, C6 -/

/-- What `rangeHILtoHCL.onLine` returns for an offset inside the line. -/
theorem onLine_inside (seg : Segmentation) (pos : HilPos) (lineRng : Range) (lineSrc : Bytes)
    (hline : (lineRng.Start.Line : Int) = pos.Line) (h0 : 0 ≤ pos.Column - 1)
    (h1 : pos.Column - 1 ≤ (lineSrc.length : Int)) :
    rangeHILtoHCL.onLine seg pos lineRng lineSrc =
      { Filename := pos.Filename,
        Start := { Line := lineRng.Start.Line,
                   Column := lineRng.Start.Column +
                     TokenCount seg (lineSrc.take (pos.Column - 1).toNat),
                   Byte := lineRng.Start.Byte + (pos.Column - 1).toNat },
        End := lineRng.End } := by
  unfold rangeHILtoHCL.onLine
  rw [if_neg (by omega)]
  simp only
  rw [if_neg (by omega), if_neg (by omega)]

/-- What `rangeHILtoHCL.onLine` returns for an offset outside the line. -/
theorem onLine_outside (seg : Segmentation) (pos : HilPos) (lineRng : Range) (lineSrc : Bytes)
    (h : pos.Column - 1 < 0 ∨ (lineSrc.length : Int) < pos.Column - 1) :
    rangeHILtoHCL.onLine seg pos lineRng lineSrc = garbageRange pos := by
  unfold rangeHILtoHCL.onLine
  split
  · rfl
  · simp only
    split
    · rfl
    · split
      · rfl
      · omega

theorem targetLine_line (seg : Segmentation) (filename : String) (src : Bytes) (srcPos : Pos)
    (line : Int) (l : Range × Bytes) (h : targetLine seg filename src srcPos line = some l) :
    (l.1.Start.Line : Int) = line := by
  unfold targetLine at h
  have := List.find?_some h
  simpa using this

/-- What `rangeHILtoHCL` returns when the target line exists and the byte
offset `pos.Column - 1` lies within it. -/
theorem rangeHILtoHCL_inside (seg : Segmentation) (hseg : seg.Lawful) (fuel : Nat)
    (pos : HilPos) (src : Bytes) (srcPos : Pos) (lineRng : Range) (lineSrc : Bytes)
    (hfuel : src.length < fuel)
    (hline : targetLine seg pos.Filename src srcPos pos.Line = some (lineRng, lineSrc))
    (h0 : 0 ≤ pos.Column - 1) (h1 : pos.Column - 1 ≤ (lineSrc.length : Int)) :
    rangeHILtoHCL seg fuel pos src srcPos = some
      { Filename := pos.Filename,
        Start := { Line := lineRng.Start.Line,
                   Column := lineRng.Start.Column +
                     TokenCount seg (lineSrc.take (pos.Column - 1).toNat),
                   Byte := lineRng.Start.Byte + (pos.Column - 1).toNat },
        End := lineRng.End } := by
  have hl := targetLine_line seg _ src srcPos _ _ hline
  have hr := rangeHILtoHCL_eq seg hseg fuel pos src srcPos hfuel
  rw [hline] at hr
  simp only at hr
  rw [onLine_inside seg pos lineRng lineSrc hl h0 h1] at hr
  exact hr

/-- C2: when the line scan of `src` relative to `srcPos` reaches a line
whose start line number is `pos.Line`, and `0 ≤ pos.Column - 1 ≤` the byte
length of that line, `rangeHILtoHCL` returns the range with the file name of
`pos`, whose start has the line and column of the line start advanced by the
number of grapheme clusters in the first `pos.Column - 1` bytes and the byte
offset advanced by `pos.Column - 1`, and whose end is the end of that line;
`posHILtoHCL` returns that start. -/
theorem c2_rangeHILtoHCL_on_target_line (seg : Segmentation) (hseg : seg.Lawful) (fuel : Nat)
    (pos : HilPos) (src : Bytes) (srcPos : Pos) (lineRng : Range) (lineSrc : Bytes)
    (hfuel : src.length < fuel)
    (hline : targetLine seg pos.Filename src srcPos pos.Line = some (lineRng, lineSrc))
    (h0 : 0 ≤ pos.Column - 1) (h1 : pos.Column - 1 ≤ (lineSrc.length : Int)) :
    rangeHILtoHCL seg fuel pos src srcPos = some
      { Filename := pos.Filename,
        Start := { Line := lineRng.Start.Line,
                   Column := lineRng.Start.Column +
                     TokenCount seg (lineSrc.take (pos.Column - 1).toNat),
                   Byte := lineRng.Start.Byte + (pos.Column - 1).toNat },
        End := lineRng.End } ∧
    posHILtoHCL seg fuel pos src srcPos = some
      { Line := lineRng.Start.Line,
        Column := lineRng.Start.Column + TokenCount seg (lineSrc.take (pos.Column - 1).toNat),
        Byte := lineRng.Start.Byte + (pos.Column - 1).toNat } := by
  have hl := targetLine_line seg _ src srcPos _ _ hline
  have hr := rangeHILtoHCL_eq seg hseg fuel pos src srcPos hfuel
  rw [hline] at hr
  simp only at hr
  rw [onLine_inside seg pos lineRng lineSrc hl h0 h1] at hr
  refine ⟨hr, ?_⟩
  unfold posHILtoHCL
  rw [hr]
  rfl

/-- C2 at the text "ab", "cde", "f" on three lines and the old position line 2, byte column 2. -/
theorem c2_rangeHILtoHCL_on_target_line_witness :
    rangeHILtoHCL utf8Clusters 20 ⟨2, 2, "main.tf"⟩ (ascii "ab\ncde\nf") ⟨1, 1, 0⟩ = some
      { Filename := "main.tf",
        Start := { Line := 2,
                   Column := 1 + TokenCount utf8Clusters ((ascii "cde").take 1),
                   Byte := 3 + 1 },
        End := ⟨2, 4, 6⟩ } ∧
    posHILtoHCL utf8Clusters 20 ⟨2, 2, "main.tf"⟩ (ascii "ab\ncde\nf") ⟨1, 1, 0⟩ = some
      { Line := 2,
        Column := 1 + TokenCount utf8Clusters ((ascii "cde").take 1),
        Byte := 3 + 1 } :=
  c2_rangeHILtoHCL_on_target_line utf8Clusters utf8Clusters_lawful 20 ⟨2, 2, "main.tf"⟩
    (ascii "ab\ncde\nf") ⟨1, 1, 0⟩ ⟨"main.tf", ⟨2, 1, 3⟩, ⟨2, 4, 6⟩⟩ (ascii "cde")
    (by decide) (by decide) (by decide) (by decide)

/-- C4: if no scanned line of `src` starts at line number `pos.Line`, or if
`pos.Column - 1` is negative, or if it is greater than the byte length of the
target line, `rangeHILtoHCL` returns the sentinel range whose start and end
are the all-zero position. -/
theorem c4_sentinel_degradation (seg : Segmentation) (hseg : seg.Lawful) (fuel : Nat)
    (pos : HilPos) (src : Bytes) (srcPos : Pos) (hfuel : src.length < fuel)
    (h : (∀ l ∈ lineScan seg pos.Filename src srcPos, (l.1.Start.Line : Int) ≠ pos.Line) ∨
         pos.Column - 1 < 0 ∨
         (∃ l, targetLine seg pos.Filename src srcPos pos.Line = some l ∧
            (l.2.length : Int) < pos.Column - 1)) :
    rangeHILtoHCL seg fuel pos src srcPos =
      some { Filename := pos.Filename, Start := ⟨0, 0, 0⟩, End := ⟨0, 0, 0⟩ } := by
  rw [rangeHILtoHCL_eq seg hseg fuel pos src srcPos hfuel]
  congr 1
  cases ht : targetLine seg pos.Filename src srcPos pos.Line with
  | none => rfl
  | some l =>
    simp only
    rcases h with h | h | ⟨l2, hl2, h⟩
    · exfalso
      have hmem : l ∈ lineScan seg pos.Filename src srcPos := by
        unfold targetLine at ht
        exact List.mem_of_find?_eq_some ht
      exact h l hmem (targetLine_line seg _ src srcPos _ _ ht)
    · exact onLine_outside seg pos l.1 l.2 (Or.inl h)
    · rw [ht] at hl2
      cases hl2
      exact onLine_outside seg pos l.1 l.2 (Or.inr h)

/-- C4 at the text "ab", "cde", "f" on three lines and the old position line 7, byte column 1. -/
theorem c4_sentinel_degradation_witness :
    rangeHILtoHCL utf8Clusters 20 ⟨1, 7, "main.tf"⟩ (ascii "ab\ncde\nf") ⟨1, 1, 0⟩ =
      some { Filename := "main.tf", Start := ⟨0, 0, 0⟩, End := ⟨0, 0, 0⟩ } :=
  c4_sentinel_degradation utf8Clusters utf8Clusters_lawful 20 ⟨1, 7, "main.tf"⟩
    (ascii "ab\ncde\nf") ⟨1, 1, 0⟩ (by decide) (Or.inl (by decide))

/-- The first `Scan` of a scanner with split function `ScanLines` over text
without a line feed, from byte 0: the whole text is the first line. -/
theorem rangeHILtoHCL_first_line (seg : Segmentation) (fuel : Nat) (pos : HilPos) (src : Bytes)
    (srcPos : Pos) (hbyte : srcPos.Byte = 0) (hne : src ≠ []) (hlf : IndexByte src 10 = none)
    (hline : (srcPos.Line : Int) = pos.Line) :
    ∃ e, rangeHILtoHCL seg (fuel + 1) pos src srcPos =
      some (rangeHILtoHCL.onLine seg pos ⟨pos.Filename, srcPos, e⟩ (dropCR src)) := by
  have hlen : src.length ≠ 0 := by simpa using hne
  have hcb : ScanLines src = (src.length, some (dropCR src)) := by
    unfold ScanLines
    rw [if_neg hlen, hlf]
  unfold rangeHILtoHCL rangeHILtoHCL.loop
  rw [Scan_of_token seg _ src.length (dropCR src)
    (by simp only [NewRangeScannerFragment, hbyte]; omega)
    (by simp only [NewRangeScannerFragment, hbyte, List.drop_zero]; exact hcb)]
  simp only [NewRangeScannerFragment, ne_eq, hline, not_true_eq_false, ↓reduceIte]
  exact ⟨_, rfl⟩

/-- C5: when the target line starts at column 1 and its first
`pos.Column - 1` bytes contain a grapheme cluster of two or more bytes, the
start column that `rangeHILtoHCL` computes is strictly less than the old byte
column `pos.Column`; and for the line "á = 1" (with "á" in two bytes, one
cluster) scanned from line 1, column 1, byte 0, the old position line 1, byte
column 4 translates to column 3, byte 3. -/
theorem c5_multibyte_column (seg : Segmentation) (hseg : seg.Lawful) (fuel : Nat) (pos : HilPos)
    (src : Bytes) (srcPos : Pos) (lineRng : Range) (lineSrc : Bytes) (filename : String)
    (hfuel : src.length < fuel)
    (hline : targetLine seg pos.Filename src srcPos pos.Line = some (lineRng, lineSrc))
    (hcol : lineRng.Start.Column = 1)
    (h0 : 0 ≤ pos.Column - 1) (h1 : pos.Column - 1 ≤ (lineSrc.length : Int))
    (hmb : ∃ g ∈ seg (lineSrc.take (pos.Column - 1).toNat), 2 ≤ g.length)
    (hex : TokenCount seg [0xC3, 0xA1, 0x20] = 2) :
    (∃ r, rangeHILtoHCL seg fuel pos src srcPos = some r ∧ (r.Start.Column : Int) < pos.Column) ∧
    posHILtoHCL seg fuel ⟨4, 1, filename⟩ [0xC3, 0xA1, 0x20, 0x3D, 0x20, 0x31] ⟨1, 1, 0⟩ =
      some ⟨1, 3, 3⟩ := by
  constructor
  · have hr := rangeHILtoHCL_inside seg hseg fuel pos src srcPos lineRng lineSrc
      hfuel hline h0 h1
    refine ⟨_, hr, ?_⟩
    have hlt := clusters_length_lt _ (hseg _).2 hmb
    rw [(hseg _).1] at hlt
    simp only [TokenCount, hcol]
    have hlen : (lineSrc.take (pos.Column - 1).toNat).length = (pos.Column - 1).toNat := by
      rw [List.length_take]
      omega
    omega
  · obtain ⟨f, rfl⟩ : ∃ f, fuel = f + 1 := ⟨fuel - 1, by omega⟩
    obtain ⟨e, he⟩ := rangeHILtoHCL_first_line seg f ⟨4, 1, filename⟩
      [0xC3, 0xA1, 0x20, 0x3D, 0x20, 0x31] ⟨1, 1, 0⟩ rfl (by simp) (by decide) rfl
    unfold posHILtoHCL
    rw [he]
    have hd : dropCR [0xC3, 0xA1, 0x20, 0x3D, 0x20, 0x31] = [0xC3, 0xA1, 0x20, 0x3D, 0x20, 0x31] := by
      decide
    rw [onLine_inside seg _ _ _ rfl (by simp) (by rw [hd]; simp), hd]
    have ht : TokenCount seg (List.take ((4 : Int) - 1).toNat [0xC3, 0xA1, 0x20, 0x3D, 0x20, 0x31])
        = 2 := hex
    simp only [Option.map_some', ht]
    rfl

/-- C5 at the line "á = 1" and the old position line 1, byte column 4. -/
theorem c5_multibyte_column_witness :
    (∃ r, rangeHILtoHCL utf8Clusters 7 ⟨4, 1, "main.tf"⟩ [0xC3, 0xA1, 0x20, 0x3D, 0x20, 0x31]
        ⟨1, 1, 0⟩ = some r ∧ (r.Start.Column : Int) < 4) ∧
    posHILtoHCL utf8Clusters 7 ⟨4, 1, "main.tf"⟩ [0xC3, 0xA1, 0x20, 0x3D, 0x20, 0x31] ⟨1, 1, 0⟩ =
      some ⟨1, 3, 3⟩ :=
  c5_multibyte_column utf8Clusters utf8Clusters_lawful 7 ⟨4, 1, "main.tf"⟩
    [0xC3, 0xA1, 0x20, 0x3D, 0x20, 0x31] ⟨1, 1, 0⟩ ⟨"main.tf", ⟨1, 1, 0⟩, ⟨1, 6, 6⟩⟩
    [0xC3, 0xA1, 0x20, 0x3D, 0x20, 0x31] "main.tf" (by decide) (by decide) (by decide)
    (by decide) (by decide) ⟨[0xC3, 0xA1], by decide, by decide⟩ (by decide)

theorem seg_nil (seg : Segmentation) (hseg : seg.Lawful) : seg [] = [] := by
  obtain ⟨hflat, hne⟩ := hseg []
  cases h : seg [] with
  | nil => rfl
  | cons g gs =>
    rw [h] at hflat hne
    have hg : g ≠ [] := hne g (by simp)
    simp only [List.flatten_cons, List.append_eq_nil] at hflat
    exact absurd hflat.1 hg

theorem IndexByte_of_mem (c : Nat) : ∀ (data : Bytes), c ∈ data →
    ∃ i, IndexByte data c = some i ∧ i < data.length ∧ (data.drop i).head? = some c
  | [], h => by simp at h
  | b :: rest, h => by
    unfold IndexByte
    by_cases hbc : b = c
    · subst hbc
      exact ⟨0, by simp, by simp, by simp⟩
    · have hmem : c ∈ rest := by
        simp only [List.mem_cons] at h
        rcases h with h | h
        · exact absurd h.symm hbc
        · exact h
      obtain ⟨i, hi, hlt, hhead⟩ := IndexByte_of_mem c rest hmem
      refine ⟨i + 1, by simp [hbc, hi], by simp; omega, by simpa using hhead⟩

/-- At a separator the split function `scanAttrSteps` returns advance 0 with
an empty non-nil token, and `Scan` returns true without moving. -/
theorem Scan_at_dot (seg : Segmentation) (hseg : seg.Lawful) (sc : RangeScanner)
    (hcb : sc.cb = scanAttrSteps) (hlt : sc.pos.Byte < sc.b.length)
    (hdot : (sc.b.drop sc.pos.Byte).head? = some 46) :
    ∃ sc1, sc.Scan seg = some sc1 ∧ sc1.cb = sc.cb ∧ sc1.b = sc.b ∧ sc1.pos = sc.pos := by
  have hsplit : sc.cb (sc.b.drop sc.pos.Byte) = (0, some []) := by
    rw [hcb]
    cases hd : sc.b.drop sc.pos.Byte with
    | nil => rw [hd] at hdot; simp at hdot
    | cons x xs =>
      rw [hd] at hdot
      simp only [List.head?_cons, Option.some.injEq] at hdot
      subst hdot
      simp [scanAttrSteps, IndexByte]
  refine ⟨_, Scan_of_token seg sc 0 [] hlt hsplit, rfl, rfl, ?_⟩
  simp [seg_nil seg hseg]

theorem loop_stuck (seg : Segmentation) (hseg : seg.Lawful) :
    ∀ (fuel : Nat) (sc : RangeScanner) (ret : Traversal), sc.cb = scanAttrSteps →
      sc.pos.Byte < sc.b.length → (sc.b.drop sc.pos.Byte).head? = some 46 →
      VariableTraversal.loop seg fuel sc ret = none
  | 0, _, _, _, _, _ => rfl
  | fuel + 1, sc, ret, hcb, hlt, hdot => by
    obtain ⟨sc1, hs, hcb1, hb1, hpos1⟩ := Scan_at_dot seg hseg sc hcb hlt hdot
    unfold VariableTraversal.loop
    rw [hs]
    simp only
    have ih := fun r => loop_stuck seg hseg fuel sc1 r (by rw [hcb1, hcb])
      (by rw [hpos1, hb1]; exact hlt) (by rw [hpos1, hb1]; exact hdot)
    split <;> exact ih _

/-- A name with a separator at or after the start byte of the range keeps
the loop of `VariableTraversal` running for ever. -/
theorem loop_none_of_dot (seg : Segmentation) (hseg : seg.Lawful) (fuel : Nat)
    (name : Bytes) (filename : String) (start : Pos) (hdot : 46 ∈ name.drop start.Byte) :
    VariableTraversal.loop seg fuel (NewRangeScannerFragment name filename start scanAttrSteps) []
      = none := by
  cases fuel with
  | zero => rfl
  | succ fuel =>
    obtain ⟨i, hi, hlt, hhead⟩ := IndexByte_of_mem 46 _ hdot
    have hlen : start.Byte < name.length := by
      by_contra hge
      rw [List.drop_of_length_le (by omega)] at hdot
      simp at hdot
    have hsplit : scanAttrSteps (name.drop start.Byte) =
        (i, some ((name.drop start.Byte).take i)) := by
      simp [scanAttrSteps, hi]
    unfold VariableTraversal.loop
    rw [Scan_of_token seg _ i _ hlen hsplit]
    simp only [NewRangeScannerFragment, List.length_nil, ↓reduceIte]
    apply loop_stuck seg hseg
    · rfl
    · simp only [advance_fold_byte, (hseg _).1, List.length_take, List.length_drop]
      simp only [List.length_drop] at hlt
      omega
    · simp only [advance_fold_byte, (hseg _).1, List.length_take, List.length_drop]
      simp only [List.length_drop] at hlt
      rw [Nat.min_eq_left (by omega), ← List.drop_drop]
      exact hhead

/-- C1, on the code: for the name "a.b.3" and every range that starts at
byte 0, `VariableTraversal` never returns (no fuel is enough), so it does not
return the three steps root "a", index "b", index "3": `scanAttrSteps` stops
at the first separator and never moves past it. -/
theorem c1_dotted_name_never_returns (seg : Segmentation) (hseg : seg.Lawful) (fuel : Nat)
    (rng : Range) (hbyte : rng.Start.Byte = 0) :
    VariableTraversal seg fuel (ascii "a.b.3") rng = none := by
  have hdot : 46 ∈ (ascii "a.b.3").drop rng.Start.Byte := by
    rw [hbyte]
    decide
  have hloop := loop_none_of_dot seg hseg fuel (ascii "a.b.3") rng.Filename rng.Start hdot
  unfold VariableTraversal
  simp only [hloop]

/-- C1, on the code, at the range from byte 0 to byte 5 of line 1. -/
theorem c1_dotted_name_never_returns_witness :
    VariableTraversal utf8Clusters 1000 (ascii "a.b.3") ⟨"main.tf", ⟨1, 1, 0⟩, ⟨1, 6, 5⟩⟩ = none :=
  c1_dotted_name_never_returns utf8Clusters utf8Clusters_lawful 1000
    ⟨"main.tf", ⟨1, 1, 0⟩, ⟨1, 6, 5⟩⟩ rfl

/-- C7: for every range `rng`, `VariableTraversal` on the empty name
returns a nil traversal and exactly one diagnostic, of error severity, with
summary "Empty variable reference" and subject `rng`. -/
theorem c7_empty_reference (seg : Segmentation) (fuel : Nat) (rng : Range) (hfuel : 0 < fuel) :
    ∃ d, VariableTraversal seg fuel (ascii "") rng = some ([], [d]) ∧
      d.Severity = DiagnosticSeverity.DiagError ∧
      d.Summary = "Empty variable reference" ∧ d.Subject = some rng := by
  obtain ⟨f, rfl⟩ : ∃ f, fuel = f + 1 := ⟨fuel - 1, by omega⟩
  refine ⟨{ Severity := DiagnosticSeverity.DiagError,
            Summary := "Empty variable reference",
            Detail := "There must be at least one character in a variable reference.",
            Subject := some rng }, ?_, rfl, rfl, rfl⟩
  have hs : (NewRangeScannerFragment (ascii "") rng.Filename rng.Start scanAttrSteps).Scan seg
      = none := Scan_none_of_ge seg _ (by simp [NewRangeScannerFragment, ascii])
  unfold VariableTraversal VariableTraversal.loop
  simp only [hs]
  rfl

/-- C7 at an empty range at the start of a file. -/
theorem c7_empty_reference_witness :
    ∃ d, VariableTraversal utf8Clusters 1 (ascii "") ⟨"main.tf", ⟨1, 1, 0⟩, ⟨1, 1, 0⟩⟩ =
        some ([], [d]) ∧
      d.Severity = DiagnosticSeverity.DiagError ∧
      d.Summary = "Empty variable reference" ∧
      d.Subject = some ⟨"main.tf", ⟨1, 1, 0⟩, ⟨1, 1, 0⟩⟩ :=
  c7_empty_reference utf8Clusters 1 ⟨"main.tf", ⟨1, 1, 0⟩, ⟨1, 1, 0⟩⟩ (by decide)

/-- C8, on the code: for every name with a separator at or after the start
byte of the range (names that contain, start with or end with a separator,
for a range starting at byte 0), `VariableTraversal` does not return for any
amount of fuel: the scan loop stops making progress at the separator. -/
theorem c8_separator_never_terminates (seg : Segmentation) (hseg : seg.Lawful) (fuel : Nat)
    (name : Bytes) (rng : Range) (hdot : 46 ∈ name.drop rng.Start.Byte) :
    VariableTraversal seg fuel name rng = none := by
  have hloop : VariableTraversal.loop seg fuel
      (NewRangeScannerFragment name rng.Filename rng.Start scanAttrSteps) [] = none :=
    loop_none_of_dot seg hseg fuel name rng.Filename rng.Start hdot
  unfold VariableTraversal
  simp only [hloop]

/-- C8, on the code, at the name "foo." with a trailing separator. -/
theorem c8_separator_never_terminates_witness :
    VariableTraversal utf8Clusters 1000 (ascii "foo.") ⟨"main.tf", ⟨1, 1, 0⟩, ⟨1, 5, 4⟩⟩ = none :=
  c8_separator_never_terminates utf8Clusters utf8Clusters_lawful 1000 (ascii "foo.")
    ⟨"main.tf", ⟨1, 1, 0⟩, ⟨1, 5, 4⟩⟩ (by decide)

/-! ## Error translation: C9, C10 -/

/-- With enough fuel `rangeHILtoHCL` returns a range. -/
theorem rangeHILtoHCL_returns (seg : Segmentation) (hseg : seg.Lawful) (fuel : Nat) (pos : HilPos)
    (src : Bytes) (srcPos : Pos) (hfuel : src.length < fuel) :
    ∃ r, rangeHILtoHCL seg fuel pos src srcPos = some r :=
  ⟨_, rangeHILtoHCL_eq seg hseg fuel pos src srcPos hfuel⟩

theorem errorToDiagnostics_parseError (seg : Segmentation) (fuel : Nat) (src : Bytes)
    (srcPos : Pos) (q : HilPos) (m : String) (r : Range)
    (hr : rangeHILtoHCL seg fuel q src srcPos = some r) :
    errorToDiagnostics seg fuel (some (HilError.ParseError m q)) src srcPos =
      some [{ Severity := DiagnosticSeverity.DiagError,
              Summary := "Error during parsing",
              Detail := "Invalid syntax: " ++ m ++ ".",
              Subject := some r }] := by
  simp only [errorToDiagnostics, hr]

/-- C9: `errorToDiagnostics` on the nil error is the empty list of
diagnostics, and on every non-nil error it is exactly one diagnostic, of
error severity, for every source and start position. -/
theorem c9_error_diagnostics_count (seg : Segmentation) (hseg : seg.Lawful) (fuel : Nat)
    (src : Bytes) (srcPos : Pos) (hfuel : src.length < fuel) :
    errorToDiagnostics seg fuel none src srcPos = some [] ∧
    ∀ err : HilError, ∃ d, errorToDiagnostics seg fuel (some err) src srcPos = some [d] ∧
      d.Severity = DiagnosticSeverity.DiagError := by
  refine ⟨rfl, ?_⟩
  intro err
  cases err with
  | ParseError message pos =>
    obtain ⟨r, hr⟩ := rangeHILtoHCL_returns seg hseg fuel pos src srcPos hfuel
    exact ⟨_, errorToDiagnostics_parseError seg fuel src srcPos pos message r hr, rfl⟩
  | Other text => exact ⟨_, rfl, rfl⟩

/-- C9 at an unterminated interpolation sequence scanned from the initial position. -/
theorem c9_error_diagnostics_count_witness :
    errorToDiagnostics utf8Clusters 10 none (ascii "$\x7bfoo") ⟨1, 1, 0⟩ = some [] ∧
    ∀ err : HilError, ∃ d,
      errorToDiagnostics utf8Clusters 10 (some err) (ascii "$\x7bfoo") ⟨1, 1, 0⟩ = some [d] ∧
      d.Severity = DiagnosticSeverity.DiagError :=
  c9_error_diagnostics_count utf8Clusters utf8Clusters_lawful 10 (ascii "$\x7bfoo") ⟨1, 1, 0⟩
    (by decide)

/-- C10: for a parse error with position `q` and message `m` the single
diagnostic of `errorToDiagnostics` has as subject the range that
`rangeHILtoHCL` returns for `q`, and a detail that contains `m` verbatim; for
any other error with text `t` the single diagnostic has no subject, the
summary "Invalid interpolation" and a detail that contains `t` verbatim. -/
theorem c10_error_diagnostics_content (seg : Segmentation) (hseg : seg.Lawful) (fuel : Nat)
    (src : Bytes) (srcPos : Pos) (q : HilPos) (m t : String) (hfuel : src.length < fuel) :
    (∃ d r, errorToDiagnostics seg fuel (some (HilError.ParseError m q)) src srcPos = some [d] ∧
      rangeHILtoHCL seg fuel q src srcPos = some r ∧ d.Subject = some r ∧
      ∃ before after, d.Detail = before ++ m ++ after) ∧
    (∃ d, errorToDiagnostics seg fuel (some (HilError.Other t)) src srcPos = some [d] ∧
      d.Subject = none ∧ d.Summary = "Invalid interpolation" ∧
      ∃ before after, d.Detail = before ++ t ++ after) := by
  constructor
  · obtain ⟨r, hr⟩ := rangeHILtoHCL_returns seg hseg fuel q src srcPos hfuel
    exact ⟨_, r, errorToDiagnostics_parseError seg fuel src srcPos q m r hr, hr, rfl,
      "Invalid syntax: ", ".", rfl⟩
  · exact ⟨_, rfl, rfl, rfl, "Failed: ", ".", rfl⟩

/-- C10 at an unterminated interpolation sequence with a parse error at line 1, byte column 3. -/
theorem c10_error_diagnostics_content_witness :
    (∃ d r, errorToDiagnostics utf8Clusters 10
        (some (HilError.ParseError "expected expression" ⟨3, 1, "main.tf"⟩)) (ascii "$\x7bfoo")
        ⟨1, 1, 0⟩ = some [d] ∧
      rangeHILtoHCL utf8Clusters 10 ⟨3, 1, "main.tf"⟩ (ascii "$\x7bfoo") ⟨1, 1, 0⟩ = some r ∧
      d.Subject = some r ∧
      ∃ before after, d.Detail = before ++ "expected expression" ++ after) ∧
    (∃ d, errorToDiagnostics utf8Clusters 10 (some (HilError.Other "unknown variable"))
        (ascii "$\x7bfoo") ⟨1, 1, 0⟩ = some [d] ∧
      d.Subject = none ∧ d.Summary = "Invalid interpolation" ∧
      ∃ before after, d.Detail = before ++ "unknown variable" ++ after) :=
  c10_error_diagnostics_content utf8Clusters utf8Clusters_lawful 10 (ascii "$\x7bfoo") ⟨1, 1, 0⟩
    ⟨3, 1, "main.tf"⟩ "expected expression" "unknown variable" (by decide)

/-! ## The rewrite pass: C3 -/

theorem fixUp_Arithmetic (self : ExprRef) (op : ArithmeticOp) (exprs : List Node) (posx : HilPos) :
    fixUpASTVisitor self (Node.Arithmetic op exprs posx) = Node.Arithmetic op exprs posx := rfl

theorem fixUp_Call (self : ExprRef) (func : String) (args : List Node) (posx : HilPos) :
    fixUpASTVisitor self (Node.Call func args posx) = Node.functionCallNode func args posx self :=
  rfl

theorem fixUp_Conditional (self : ExprRef) (c t f : Node) (posx : HilPos) :
    fixUpASTVisitor self (Node.Conditional c t f posx) = Node.Conditional c t f posx := rfl

theorem fixUp_Index (self : ExprRef) (t k : Node) (posx : HilPos) :
    fixUpASTVisitor self (Node.Index t k posx) = Node.Index t k posx := rfl

theorem fixUp_LiteralNode (self : ExprRef) (value : String) (typex : HilType) (posx : HilPos) :
    fixUpASTVisitor self (Node.LiteralNode value typex posx) = Node.LiteralNode value typex posx :=
  rfl

theorem fixUp_Output (self : ExprRef) (exprs : List Node) (posx : HilPos) :
    fixUpASTVisitor self (Node.Output exprs posx) = Node.Output exprs posx := rfl

theorem fixUp_VariableAccess (self : ExprRef) (name : String) (posx : HilPos) :
    fixUpASTVisitor self (Node.VariableAccess name posx) = Node.variableAccessNode name posx self :=
  rfl

theorem fixUp_variableAccessNode (self : ExprRef) (name : String) (posx : HilPos)
    (expr : ExprRef) :
    fixUpASTVisitor self (Node.variableAccessNode name posx expr) =
      Node.variableAccessNode name posx expr := rfl

theorem fixUp_functionCallNode (self : ExprRef) (func : String) (args : List Node)
    (posx : HilPos) (expr : ExprRef) :
    fixUpASTVisitor self (Node.functionCallNode func args posx expr) =
      Node.functionCallNode func args posx expr := rfl

mutual
theorem countAdapter_le (p : ExprRef → Bool) : ∀ n : Node,
    Node.countAdapter p n ≤ Node.countAdapter (fun _ => true) n
  | Node.Arithmetic _ exprs _ => by
    simpa only [Node.countAdapter] using countAdapterList_le p exprs
  | Node.Call _ args _ => by
    simpa only [Node.countAdapter] using countAdapterList_le p args
  | Node.Conditional c t f _ => by
    have := countAdapter_le p c
    have := countAdapter_le p t
    have := countAdapter_le p f
    simp only [Node.countAdapter]
    omega
  | Node.Index t k _ => by
    have := countAdapter_le p t
    have := countAdapter_le p k
    simp only [Node.countAdapter]
    omega
  | Node.LiteralNode _ _ _ => by simp only [Node.countAdapter, le_refl]
  | Node.Output exprs _ => by
    simpa only [Node.countAdapter] using countAdapterList_le p exprs
  | Node.VariableAccess _ _ => by simp only [Node.countAdapter, le_refl]
  | Node.variableAccessNode _ _ expr => by
    simp only [Node.countAdapter]
    split <;> simp
  | Node.functionCallNode _ args _ expr => by
    have := countAdapterList_le p args
    simp only [Node.countAdapter]
    split <;> simp <;> omega
theorem countAdapterList_le (p : ExprRef → Bool) : ∀ l : List Node,
    Node.countAdapterList p l ≤ Node.countAdapterList (fun _ => true) l
  | [] => by simp only [Node.countAdapterList, le_refl]
  | a :: rest => by
    have := countAdapter_le p a
    have := countAdapterList_le p rest
    simp only [Node.countAdapterList]
    omega
end

mutual
theorem accept_counts (self : ExprRef) (p : ExprRef → Bool) : ∀ n : Node,
    Node.countVariableAccess ((fixUpASTVisitor self) (Node.acceptChildren (fixUpASTVisitor self) n)) = 0 ∧
    Node.countCall ((fixUpASTVisitor self) (Node.acceptChildren (fixUpASTVisitor self) n)) = 0 ∧
    Node.countAdapter p ((fixUpASTVisitor self) (Node.acceptChildren (fixUpASTVisitor self) n)) =
      Node.countAdapter p n +
        (if p self then 1 else 0) * (Node.countVariableAccess n + Node.countCall n)
  | Node.Arithmetic op exprs posx => by
    have ih := acceptList_counts self p exprs
    simpa only [Node.acceptChildren, fixUp_Arithmetic, fixUp_Output, Node.countVariableAccess,
      Node.countCall, Node.countAdapter] using ih
  | Node.Call func args posx => by
    obtain ⟨h1, h2, h3⟩ := acceptList_counts self p args
    simp only [Node.acceptChildren, fixUp_Arithmetic, fixUp_Call, fixUp_Conditional, fixUp_Index,
      fixUp_LiteralNode, fixUp_Output, fixUp_VariableAccess, fixUp_variableAccessNode,
      fixUp_functionCallNode, Node.countVariableAccess, Node.countCall, Node.countAdapter]
    refine ⟨h1, h2, ?_⟩
    rw [h3]
    ring
  | Node.Conditional c t f posx => by
    obtain ⟨c1, c2, c3⟩ := accept_counts self p c
    obtain ⟨t1, t2, t3⟩ := accept_counts self p t
    obtain ⟨f1, f2, f3⟩ := accept_counts self p f
    simp only [Node.acceptChildren, fixUp_Arithmetic, fixUp_Call, fixUp_Conditional, fixUp_Index,
      fixUp_LiteralNode, fixUp_Output, fixUp_VariableAccess, fixUp_variableAccessNode,
      fixUp_functionCallNode, Node.countVariableAccess, Node.countCall, Node.countAdapter]
    refine ⟨by omega, by omega, ?_⟩
    rw [c3, t3, f3]
    ring
  | Node.Index t k posx => by
    obtain ⟨t1, t2, t3⟩ := accept_counts self p t
    obtain ⟨k1, k2, k3⟩ := accept_counts self p k
    simp only [Node.acceptChildren, fixUp_Arithmetic, fixUp_Call, fixUp_Conditional, fixUp_Index,
      fixUp_LiteralNode, fixUp_Output, fixUp_VariableAccess, fixUp_variableAccessNode,
      fixUp_functionCallNode, Node.countVariableAccess, Node.countCall, Node.countAdapter]
    refine ⟨by omega, by omega, ?_⟩
    rw [t3, k3]
    ring
  | Node.LiteralNode value typex posx => by
    simp [Node.acceptChildren, fixUp_LiteralNode, fixUp_VariableAccess,
      fixUp_variableAccessNode, Node.countVariableAccess, Node.countCall, Node.countAdapter]
  | Node.Output exprs posx => by
    have ih := acceptList_counts self p exprs
    simpa only [Node.acceptChildren, fixUp_Arithmetic, fixUp_Output, Node.countVariableAccess,
      Node.countCall, Node.countAdapter] using ih
  | Node.VariableAccess name posx => by
    simp [Node.acceptChildren, fixUp_LiteralNode, fixUp_VariableAccess,
      fixUp_variableAccessNode, Node.countVariableAccess, Node.countCall, Node.countAdapter]
  | Node.variableAccessNode name posx expr => by
    simp [Node.acceptChildren, fixUp_LiteralNode, fixUp_VariableAccess,
      fixUp_variableAccessNode, Node.countVariableAccess, Node.countCall, Node.countAdapter]
  | Node.functionCallNode func args posx expr => by
    obtain ⟨h1, h2, h3⟩ := acceptList_counts self p args
    simp only [Node.acceptChildren, fixUp_Arithmetic, fixUp_Call, fixUp_Conditional, fixUp_Index,
      fixUp_LiteralNode, fixUp_Output, fixUp_VariableAccess, fixUp_variableAccessNode,
      fixUp_functionCallNode, Node.countVariableAccess, Node.countCall, Node.countAdapter]
    refine ⟨h1, h2, ?_⟩
    rw [h3]
    ring
theorem acceptList_counts (self : ExprRef) (p : ExprRef → Bool) : ∀ l : List Node,
    Node.countVariableAccessList (Node.acceptList (fixUpASTVisitor self) l) = 0 ∧
    Node.countCallList (Node.acceptList (fixUpASTVisitor self) l) = 0 ∧
    Node.countAdapterList p (Node.acceptList (fixUpASTVisitor self) l) =
      Node.countAdapterList p l +
        (if p self then 1 else 0) * (Node.countVariableAccessList l + Node.countCallList l)
  | [] => by
    simp [Node.acceptList, Node.countVariableAccessList, Node.countCallList,
      Node.countAdapterList]
  | a :: rest => by
    obtain ⟨a1, a2, a3⟩ := accept_counts self p a
    obtain ⟨r1, r2, r3⟩ := acceptList_counts self p rest
    simp only [Node.acceptList, Node.countVariableAccessList, Node.countCallList,
      Node.countAdapterList]
    refine ⟨by omega, by omega, ?_⟩
    rw [a3, r3]
    ring
end

/-- The visitor leaves the receiver alone unless it is a node of an old kind. -/
theorem fixUp_acceptChildren (self : ExprRef) (n : Node) (h : n.isOldRoot = false) :
    (fixUpASTVisitor self) (Node.acceptChildren (fixUpASTVisitor self) n) =
      Node.acceptChildren (fixUpASTVisitor self) n := by
  cases n <;> simp_all [Node.acceptChildren, fixUpASTVisitor, Node.isOldRoot]

/-- C3: for every tree returned by the parser, with N `VariableAccess` nodes
and M `Call` nodes, `Parse` returns an `Expression` and no diagnostics, and
the tree of that `Expression` has no `VariableAccess` and no `Call` node of
the old kind and exactly N + M adapter nodes, none with an `Expr` field other
than the handle of that `Expression`. -/
theorem c3_rewrite_completeness (parser : Parser) (seg : Segmentation) (fuel : Nat)
    (self : ExprRef) (v : Bytes) (filename : String) (start : Pos) (tree : Node)
    (hparse : parser v (posHCLtoHIL filename start) = Except.ok tree)
    (htree : tree.fromParser = true) :
    ∃ e, Parse parser seg fuel self v filename start = some (some e, []) ∧
      e.node.countVariableAccess = 0 ∧ e.node.countCall = 0 ∧
      e.node.countAdapter (fun _ => true) = tree.countVariableAccess + tree.countCall ∧
      e.node.countAdapter (fun r => decide (r ≠ self)) = 0 := by
  have hroot : tree.isOldRoot = false := by
    cases tree <;> simp_all [Node.fromParser, Node.isOldRoot]
  have hfresh : tree.countAdapter (fun _ => true) = 0 := by
    cases tree <;> simp_all [Node.fromParser, Node.countAdapter]
  refine ⟨{ node := Node.acceptChildren (fixUpASTVisitor self) tree, src := v, start := start },
    by simp only [Parse, hparse], ?_⟩
  obtain ⟨h1, h2, h3⟩ := accept_counts self (fun _ => true) tree
  obtain ⟨_, _, h4⟩ := accept_counts self (fun r => decide (r ≠ self)) tree
  rw [fixUp_acceptChildren self tree hroot] at h1 h2 h3 h4
  refine ⟨h1, h2, ?_, ?_⟩
  · rw [h3, hfresh]
    simp
  · have hle := countAdapter_le (fun r => decide (r ≠ self)) tree
    rw [hfresh] at hle
    rw [h4, Nat.le_zero.mp hle]
    simp

/-- C3 at a tree with one literal, one call and one variable access below an
output node. -/
theorem c3_rewrite_completeness_witness :
    ∃ e, Parse (fun _ p => Except.ok (Node.Output
          [Node.LiteralNode "x" HilType.TypeString p,
           Node.Call "upper" [Node.VariableAccess "foo.bar" p] p] p))
        utf8Clusters 0 7 (ascii "x$\x7bupper(foo.bar)\x7d") "main.tf" ⟨1, 1, 0⟩ = some (some e, []) ∧
      e.node.countVariableAccess = 0 ∧ e.node.countCall = 0 ∧
      e.node.countAdapter (fun _ => true) =
        (Node.Output [Node.LiteralNode "x" HilType.TypeString ⟨1, 1, "main.tf"⟩,
           Node.Call "upper" [Node.VariableAccess "foo.bar" ⟨1, 1, "main.tf"⟩]
             ⟨1, 1, "main.tf"⟩] ⟨1, 1, "main.tf"⟩).countVariableAccess +
        (Node.Output [Node.LiteralNode "x" HilType.TypeString ⟨1, 1, "main.tf"⟩,
           Node.Call "upper" [Node.VariableAccess "foo.bar" ⟨1, 1, "main.tf"⟩]
             ⟨1, 1, "main.tf"⟩] ⟨1, 1, "main.tf"⟩).countCall ∧
      e.node.countAdapter (fun r => decide (r ≠ 7)) = 0 :=
  c3_rewrite_completeness _ utf8Clusters 0 7 (ascii "x$\x7bupper(foo.bar)\x7d") "main.tf" ⟨1, 1, 0⟩
    (Node.Output [Node.LiteralNode "x" HilType.TypeString ⟨1, 1, "main.tf"⟩,
       Node.Call "upper" [Node.VariableAccess "foo.bar" ⟨1, 1, "main.tf"⟩]
         ⟨1, 1, "main.tf"⟩] ⟨1, 1, "main.tf"⟩)
    rfl (by decide)

/-! ## The rewrite pass: C11, C19 -/

/-- The visitor keeps the position of every node. -/
theorem fixUp_Pos (self : ExprRef) (n : Node) : (fixUpASTVisitor self n).Pos = n.Pos := by
  cases n <;> rfl

/-- Visiting the children keeps the position of the receiver. -/
theorem acceptChildren_Pos (v : Visitor) (n : Node) : (Node.acceptChildren v n).Pos = n.Pos := by
  cases n <;> simp only [Node.acceptChildren, Node.Pos]

/-- C11: the rewrite visitor preserves node data. A `VariableAccess` node
with name `name` and position `posx` is replaced by a `variableAccessNode`
with the same name and position and the owning expression; a `Call` node is
replaced by a `functionCallNode` with the same function name, the already
rewritten arguments, the same position and the owning expression; and `Pos()`
of every node is unchanged by the visitor and by `Accept`. -/
theorem c11_visitor_preserves_data (self : ExprRef) (name func : String) (args : List Node)
    (posx : HilPos) (n : Node) :
    fixUpASTVisitor self (Node.VariableAccess name posx) =
      Node.variableAccessNode name posx self ∧
    Node.Accept (fixUpASTVisitor self) (Node.VariableAccess name posx) =
      Node.variableAccessNode name posx self ∧
    fixUpASTVisitor self (Node.Call func args posx) =
      Node.functionCallNode func args posx self ∧
    Node.Accept (fixUpASTVisitor self) (Node.Call func args posx) =
      Node.functionCallNode func (Node.acceptList (fixUpASTVisitor self) args) posx self ∧
    (fixUpASTVisitor self n).Pos = n.Pos ∧
    (Node.Accept (fixUpASTVisitor self) n).Pos = n.Pos := by
  refine ⟨rfl, ?_, rfl, ?_, fixUp_Pos self n, ?_⟩
  · simp only [Node.Accept, Node.acceptChildren, fixUp_VariableAccess]
  · simp only [Node.Accept, Node.acceptChildren, fixUp_Call]
  · simp only [Node.Accept, fixUp_Pos, acceptChildren_Pos]

mutual
theorem accept_clean (self : ExprRef) : ∀ n : Node,
    Node.countVariableAccess n = 0 → Node.countCall n = 0 →
    Node.acceptChildren (fixUpASTVisitor self) n = n ∧
    fixUpASTVisitor self (Node.acceptChildren (fixUpASTVisitor self) n) = n
  | Node.Arithmetic op exprs posx, h1, h2 => by
    simp only [Node.countVariableAccess, Node.countCall] at h1 h2
    have ih := acceptList_clean self exprs h1 h2
    simp only [Node.acceptChildren, ih, fixUp_Arithmetic, and_self]
  | Node.Call func args posx, h1, h2 => by
    simp only [Node.countCall] at h2
    omega
  | Node.Conditional c t f posx, h1, h2 => by
    simp only [Node.countVariableAccess, Node.countCall] at h1 h2
    have hc := accept_clean self c (by omega) (by omega)
    have ht := accept_clean self t (by omega) (by omega)
    have hf := accept_clean self f (by omega) (by omega)
    simp only [Node.acceptChildren, hc.2, ht.2, hf.2, fixUp_Conditional, and_self]
  | Node.Index t k posx, h1, h2 => by
    simp only [Node.countVariableAccess, Node.countCall] at h1 h2
    have ht := accept_clean self t (by omega) (by omega)
    have hk := accept_clean self k (by omega) (by omega)
    simp only [Node.acceptChildren, ht.2, hk.2, fixUp_Index, and_self]
  | Node.LiteralNode value typex posx, _, _ => by
    simp only [Node.acceptChildren, fixUp_LiteralNode, and_self]
  | Node.Output exprs posx, h1, h2 => by
    simp only [Node.countVariableAccess, Node.countCall] at h1 h2
    have ih := acceptList_clean self exprs h1 h2
    simp only [Node.acceptChildren, ih, fixUp_Output, and_self]
  | Node.VariableAccess name posx, h1, _ => by
    simp only [Node.countVariableAccess] at h1
    omega
  | Node.variableAccessNode name posx expr, _, _ => by
    simp only [Node.acceptChildren, fixUp_variableAccessNode, and_self]
  | Node.functionCallNode func args posx expr, h1, h2 => by
    simp only [Node.countVariableAccess, Node.countCall] at h1 h2
    have ih := acceptList_clean self args h1 h2
    simp only [Node.acceptChildren, ih, fixUp_functionCallNode, and_self]
theorem acceptList_clean (self : ExprRef) : ∀ l : List Node,
    Node.countVariableAccessList l = 0 → Node.countCallList l = 0 →
    Node.acceptList (fixUpASTVisitor self) l = l
  | [], _, _ => by simp only [Node.acceptList]
  | a :: rest, h1, h2 => by
    simp only [Node.countVariableAccessList, Node.countCallList] at h1 h2
    have ha := accept_clean self a (by omega) (by omega)
    have hr := acceptList_clean self rest (by omega) (by omega)
    simp only [Node.acceptList, ha.2, hr]
end

/-- A second pass leaves the result of `Accept` alone. -/
theorem accept_accept (e1 e2 : ExprRef) (n : Node) :
    fixUpASTVisitor e2 (Node.acceptChildren (fixUpASTVisitor e2)
        (fixUpASTVisitor e1 (Node.acceptChildren (fixUpASTVisitor e1) n))) =
      fixUpASTVisitor e1 (Node.acceptChildren (fixUpASTVisitor e1) n) := by
  obtain ⟨h1, h2, _⟩ := accept_counts e1 (fun _ => true) n
  exact (accept_clean e2 _ h1 h2).2

/-- A second pass leaves the result of the argument loop alone. -/
theorem acceptList_acceptList (e1 e2 : ExprRef) (l : List Node) :
    Node.acceptList (fixUpASTVisitor e2) (Node.acceptList (fixUpASTVisitor e1) l) =
      Node.acceptList (fixUpASTVisitor e1) l := by
  obtain ⟨h1, h2, _⟩ := acceptList_counts e1 (fun _ => true) l
  exact acceptList_clean e2 _ h1 h2

/-- C19: the rewrite visitor is the identity on every node that is not a
`VariableAccess` or `Call` node of the old kind, in particular on both
adapter kinds (for which `Accept` of a `variableAccessNode` also returns the
node itself), and the pass is idempotent: a second pass, for any expression
`e2`, over a tree already rewritten by `Accept` returns the same tree, and the
same holds for the receiver that `Parse` keeps. -/
theorem c19_rewrite_idempotent (e1 e2 : ExprRef) (n : Node) (name func : String)
    (args : List Node) (posx : HilPos) (expr : ExprRef) :
    (n.isOldRoot = true ∨ fixUpASTVisitor e1 n = n) ∧
    fixUpASTVisitor e1 (Node.variableAccessNode name posx expr) =
      Node.variableAccessNode name posx expr ∧
    fixUpASTVisitor e1 (Node.functionCallNode func args posx expr) =
      Node.functionCallNode func args posx expr ∧
    Node.Accept (fixUpASTVisitor e1) (Node.variableAccessNode name posx expr) =
      Node.variableAccessNode name posx expr ∧
    Node.Accept (fixUpASTVisitor e2) (Node.Accept (fixUpASTVisitor e1) n) =
      Node.Accept (fixUpASTVisitor e1) n ∧
    Node.acceptChildren (fixUpASTVisitor e2) (Node.acceptChildren (fixUpASTVisitor e1) n) =
      Node.acceptChildren (fixUpASTVisitor e1) n := by
  refine ⟨?_, rfl, rfl, ?_, ?_, ?_⟩
  · cases n <;> simp [Node.isOldRoot, fixUpASTVisitor]
  · simp only [Node.Accept, Node.acceptChildren, fixUp_variableAccessNode]
  · simp only [Node.Accept]
    exact accept_accept e1 e2 n
  · cases n with
    | Arithmetic op exprs p =>
      simp only [Node.acceptChildren, acceptList_acceptList]
    | Call f as p =>
      simp only [Node.acceptChildren, acceptList_acceptList]
    | Conditional c t f p =>
      simp only [Node.acceptChildren, accept_accept]
    | Index t k p =>
      simp only [Node.acceptChildren, accept_accept]
    | LiteralNode v t p => simp only [Node.acceptChildren]
    | Output exprs p =>
      simp only [Node.acceptChildren, acceptList_acceptList]
    | VariableAccess nm p => simp only [Node.acceptChildren]
    | variableAccessNode nm p e => simp only [Node.acceptChildren]
    | functionCallNode f as p e =>
      simp only [Node.acceptChildren, acceptList_acceptList]

/-! ## The expression adapter: C12, C13, C18 -/

/-- With enough fuel `errorToDiagnostics` returns one error diagnostic for a
non-nil error. -/
theorem errorToDiagnostics_single (seg : Segmentation) (hseg : seg.Lawful) (fuel : Nat)
    (src : Bytes) (srcPos : Pos) (err : HilError) (hfuel : src.length < fuel) :
    ∃ d, errorToDiagnostics seg fuel (some err) src srcPos = some [d] ∧
      d.Severity = DiagnosticSeverity.DiagError := by
  cases err with
  | ParseError message pos =>
    obtain ⟨r, hr⟩ := rangeHILtoHCL_returns seg hseg fuel pos src srcPos hfuel
    exact ⟨_, errorToDiagnostics_parseError seg fuel src srcPos pos message r hr, rfl⟩
  | Other text => exact ⟨_, rfl, rfl⟩

/-- C12: `Parse` returns diagnostics that contain an error if and only if
the external parser, called with `posHCLtoHIL filename start`, fails; in that
case the returned expression is nil and the diagnostics are those of
`errorToDiagnostics` for the parser's error, the bytes of `v` and `start`;
otherwise the diagnostics are empty and the returned expression holds the
bytes of `v` and `start` unchanged. -/
theorem c12_parse_diagnostics (parser : Parser) (seg : Segmentation) (hseg : seg.Lawful)
    (fuel : Nat) (self : ExprRef) (v : Bytes) (filename : String) (start : Pos)
    (hfuel : v.length < fuel) :
    ∃ res, Parse parser seg fuel self v filename start = some res ∧
      (res.2.HasErrors = true ↔
        ∃ err, parser v (posHCLtoHIL filename start) = Except.error err) ∧
      (∀ err, parser v (posHCLtoHIL filename start) = Except.error err →
        res.1 = none ∧ errorToDiagnostics seg fuel (some err) v start = some res.2) ∧
      (∀ node, parser v (posHCLtoHIL filename start) = Except.ok node →
        res.2 = [] ∧ ∃ e, res.1 = some e ∧ e.src = v ∧ e.start = start) := by
  cases hp : parser v (posHCLtoHIL filename start) with
  | error err =>
    obtain ⟨d, hd, hsev⟩ := errorToDiagnostics_single seg hseg fuel v start err hfuel
    refine ⟨(none, [d]), by simp only [Parse, hp, hd, Option.map_some'], ?_, ?_, ?_⟩
    · constructor
      · intro _
        exact ⟨err, rfl⟩
      · intro _
        simp [Diagnostics.HasErrors, hsev]
    · intro err2 h2
      cases h2
      exact ⟨rfl, hd⟩
    · intro node h2
      cases h2
  | ok node =>
    refine ⟨(some { node := Node.acceptChildren (fixUpASTVisitor self) node, src := v,
                    start := start }, []), by simp only [Parse, hp], ?_, ?_, ?_⟩
    · constructor
      · intro h
        simp [Diagnostics.HasErrors] at h
      · rintro ⟨err, h⟩
        cases h
    · intro err h
      cases h
    · intro node2 _
      exact ⟨rfl, _, rfl, rfl, rfl⟩

/-- C12 for a parser that accepts every text as one literal. -/
theorem c12_parse_diagnostics_witness :
    ∃ res, Parse (fun _ p => Except.ok (Node.LiteralNode "x" HilType.TypeString p)) utf8Clusters 5
        7 (ascii "x") "main.tf" ⟨1, 1, 0⟩ = some res ∧
      (res.2.HasErrors = true ↔
        ∃ err, (fun _ p => Except.ok (Node.LiteralNode "x" HilType.TypeString p) : Parser)
          (ascii "x") (posHCLtoHIL "main.tf" ⟨1, 1, 0⟩) = Except.error err) ∧
      (∀ err, (fun _ p => Except.ok (Node.LiteralNode "x" HilType.TypeString p) : Parser)
          (ascii "x") (posHCLtoHIL "main.tf" ⟨1, 1, 0⟩) = Except.error err →
        res.1 = none ∧
          errorToDiagnostics utf8Clusters 5 (some err) (ascii "x") ⟨1, 1, 0⟩ = some res.2) ∧
      (∀ node, (fun _ p => Except.ok (Node.LiteralNode "x" HilType.TypeString p) : Parser)
          (ascii "x") (posHCLtoHIL "main.tf" ⟨1, 1, 0⟩) = Except.ok node →
        res.2 = [] ∧ ∃ e, res.1 = some e ∧ e.src = ascii "x" ∧ e.start = ⟨1, 1, 0⟩) :=
  c12_parse_diagnostics (fun _ p => Except.ok (Node.LiteralNode "x" HilType.TypeString p))
    utf8Clusters utf8Clusters_lawful 5 7 (ascii "x") "main.tf" ⟨1, 1, 0⟩ (by decide)

/-- Whenever `hil.Eval` returns, `Value` returns the dynamic value and the
tree as `hil.Eval` left it, with the diagnostics of `errorToDiagnostics` for
an error (one error diagnostic) and none for a result; when `hil.Eval` does
not return, neither does `Value`. -/
theorem Value_of_Eval {Ctx R S : Type} (lib : HilLibrary Ctx R S) (seg : Segmentation)
    (hseg : seg.Lawful) (fuel : Nat) (e : HeapExpression) (ctx : Ctx)
    (hfuel : e.src.length < fuel) :
    (Eval lib e.node [("ctx", ctx)] = none → e.Value lib seg fuel ctx = none) ∧
    (∀ err node1, Eval lib e.node [("ctx", ctx)] = some (Except.error err, node1) →
      ∃ d, errorToDiagnostics seg fuel (some err) e.src e.start = some [d] ∧
        d.Severity = DiagnosticSeverity.DiagError ∧
        e.Value lib seg fuel ctx = some ((Value.DynamicVal, [d]), { e with node := node1 })) ∧
    (∀ r node1, Eval lib e.node [("ctx", ctx)] = some (Except.ok r, node1) →
      e.Value lib seg fuel ctx = some ((Value.DynamicVal, []), { e with node := node1 })) := by
  refine ⟨?_, ?_, ?_⟩
  · intro h
    simp only [HeapExpression.Value, h]
  · intro err node1 h
    obtain ⟨d, hd, hsev⟩ := errorToDiagnostics_single seg hseg fuel e.src e.start err hfuel
    exact ⟨d, hd, hsev, by simp only [HeapExpression.Value, h, hd, Option.map_some']⟩
  · intro r node1 h
    simp only [HeapExpression.Value, h]

/-- C13, on the code: `Value` does not return for every expression. For the
expression that `Parse` returns for a parser tree with one variable access
below the output node, the first call of `Value` returns the dynamic value and one
error diagnostic ("unknown node for type check": the adapter node has no
`TypeCheck` method), and `hil.Eval` leaves nil in the place of the adapter
node; the second call of `Value` on the same expression does not return, for
any context. -/
theorem c13_second_value_call_never_returns {Ctx R S : Type} (lib : HilLibrary Ctx R S)
    (seg : Segmentation) (fuel : Nat) (self : ExprRef) (name : String) (varPos outPos : HilPos)
    (v : Bytes) (filename : String) (start : Pos) (ctx1 ctx2 : Ctx) :
    (Node.Output [Node.VariableAccess name varPos] outPos).fromParser = true ∧
    Parse (fun _ _ => Except.ok (Node.Output [Node.VariableAccess name varPos] outPos))
        seg fuel self v filename start =
      some (some { node := Node.Output [Node.variableAccessNode name varPos self] outPos,
                   src := v, start := start }, []) ∧
    Expression.Value lib seg fuel
        { node := Node.Output [Node.variableAccessNode name varPos self] outPos,
          src := v, start := start } ctx1 =
      some ((Value.DynamicVal,
             [{ Severity := DiagnosticSeverity.DiagError,
                Summary := "Invalid interpolation",
                Detail := "Failed: " ++
                  lib.unknownNodeText (HeapNode.variableAccessNode name varPos self) ++ ".",
                Subject := none }]),
            { node := HeapNode.Output [HeapNode.nil] outPos, src := v, start := start }) ∧
    HeapExpression.Value lib seg fuel
        { node := HeapNode.Output [HeapNode.nil] outPos, src := v, start := start } ctx2 =
      none := by
  refine ⟨rfl, rfl, rfl, rfl⟩

/-- C18: for every expression, `Range` and `StartRange` both return the
range that `rangeHILtoHCL` gives for the position of the root node, the source
and the start position, and the receiver after the call is the expression
itself, so a second call of `Range` returns the same range and tree, source
bytes and start position stay as they were. -/
theorem c18_range_idempotent (seg : Segmentation) (hseg : seg.Lawful) (fuel : Nat)
    (e : Expression) (hfuel : e.src.length < fuel) :
    ∃ r, rangeHILtoHCL seg fuel e.node.Pos e.src e.start = some r ∧
      e.Range seg fuel = some (r, e) ∧ e.StartRange seg fuel = some (r, e) ∧
      ∀ r1 e1, e.Range seg fuel = some (r1, e1) →
        e1.Range seg fuel = some (r1, e1) ∧
        e1.node = e.node ∧ e1.src = e.src ∧ e1.start = e.start := by
  obtain ⟨r, hr⟩ := rangeHILtoHCL_returns seg hseg fuel e.node.Pos e.src e.start hfuel
  have hrange : e.Range seg fuel = some (r, e) := by
    simp only [Expression.Range, hr, Option.map_some']
  refine ⟨r, hr, hrange, hrange, ?_⟩
  intro r1 e1 h1
  rw [hrange] at h1
  cases h1
  exact ⟨hrange, rfl, rfl, rfl⟩

/-- C18 at an expression for the one-line text "ab". -/
theorem c18_range_idempotent_witness :
    ∃ r, rangeHILtoHCL utf8Clusters 5
        (Node.LiteralNode "ab" HilType.TypeString ⟨1, 1, "main.tf"⟩).Pos (ascii "ab")
        ⟨1, 1, 0⟩ = some r ∧
      Expression.Range utf8Clusters 5
        { node := Node.LiteralNode "ab" HilType.TypeString ⟨1, 1, "main.tf"⟩, src := ascii "ab",
          start := ⟨1, 1, 0⟩ } =
        some (r, { node := Node.LiteralNode "ab" HilType.TypeString ⟨1, 1, "main.tf"⟩,
                   src := ascii "ab", start := ⟨1, 1, 0⟩ }) ∧
      Expression.StartRange utf8Clusters 5
        { node := Node.LiteralNode "ab" HilType.TypeString ⟨1, 1, "main.tf"⟩, src := ascii "ab",
          start := ⟨1, 1, 0⟩ } =
        some (r, { node := Node.LiteralNode "ab" HilType.TypeString ⟨1, 1, "main.tf"⟩,
                   src := ascii "ab", start := ⟨1, 1, 0⟩ }) ∧
      ∀ r1 e1, Expression.Range utf8Clusters 5
          { node := Node.LiteralNode "ab" HilType.TypeString ⟨1, 1, "main.tf"⟩,
            src := ascii "ab", start := ⟨1, 1, 0⟩ } = some (r1, e1) →
        e1.Range utf8Clusters 5 = some (r1, e1) ∧
        e1.node = Node.LiteralNode "ab" HilType.TypeString ⟨1, 1, "main.tf"⟩ ∧
        e1.src = ascii "ab" ∧ e1.start = ⟨1, 1, 0⟩ :=
  c18_range_idempotent utf8Clusters utf8Clusters_lawful 5
    { node := Node.LiteralNode "ab" HilType.TypeString ⟨1, 1, "main.tf"⟩, src := ascii "ab",
      start := ⟨1, 1, 0⟩ } (by decide)

/-! ## Lookup expressions and the traversal invariant: C14, C15, C16 -/

theorem rootThenIndexes_append (ret : Traversal) (key : Bytes) (rng : Range)
    (h : ret.rootThenIndexes = true) :
    Traversal.rootThenIndexes (ret ++ [Traverser.TraverseIndex (Value.StringVal key) rng]) = true := by
  cases ret with
  | nil => simp [Traversal.rootThenIndexes] at h
  | cons first rest =>
    simp only [Traversal.rootThenIndexes, Bool.and_eq_true] at h
    simp only [List.cons_append, Traversal.rootThenIndexes, h.1, List.all_append, h.2,
      List.all_cons, Traverser.isStringIndex, List.all_nil, Bool.and_self]

/-- The loop of `VariableTraversal` keeps the shape of the traversal built so
far: empty, or a root-name step followed by string index steps. -/
theorem loop_shape (seg : Segmentation) :
    ∀ (fuel : Nat) (sc : RangeScanner) (ret t : Traversal),
      (ret = [] ∨ ret.rootThenIndexes = true) →
      VariableTraversal.loop seg fuel sc ret = some t →
      (t = [] ∨ t.rootThenIndexes = true)
  | 0, _, _, _, _, h => by simp [VariableTraversal.loop] at h
  | fuel + 1, sc, ret, t, hret, h => by
    unfold VariableTraversal.loop at h
    cases hs : sc.Scan seg with
    | none =>
      rw [hs] at h
      simp only [Option.some.injEq] at h
      subst h
      exact hret
    | some sc1 =>
      rw [hs] at h
      simp only at h
      split at h
      · rename_i hlen
        have hnil : ret = [] := List.length_eq_zero.mp hlen
        subst hnil
        exact loop_shape seg fuel sc1 ([] ++ [Traverser.TraverseRoot sc1.tok sc1.cur]) t
          (Or.inr (by simp [Traversal.rootThenIndexes, Traverser.isRoot])) h
      · rename_i hlen
        have hshape : ret.rootThenIndexes = true := by
          rcases hret with hnil | hshape
          · exact absurd (by rw [hnil]; rfl) hlen
          · exact hshape
        exact loop_shape seg fuel sc1 _ t
          (Or.inr (rootThenIndexes_append ret sc1.tok sc1.cur hshape)) h

/-- C14: when `VariableTraversal` returns the traversal `t` and the
diagnostics `d`, `VariableLookupExpr` returns an expression that agrees with
it. Without errors in `d` that is the lookup expression of `t`: its `Value`
applies `t` absolutely to the context, its `Variables` is the list holding
`t`, and `Range` and `StartRange` are the source range of `t`. With errors in
`d` it is the failing placeholder: its `Value` yields `d`, its `Variables` is
empty and its `Range` is `rng`. -/
theorem c14_lookup_agrees {Ctx : Type} (traverseAbs : TraverseAbs Ctx) (seg : Segmentation)
    (fuel : Nat) (name : Bytes) (rng : Range) (t : Traversal) (d : Diagnostics) (ctx : Ctx)
    (h : VariableTraversal seg fuel name rng = some (t, d)) :
    ∃ e, VariableLookupExpr seg fuel name rng = some e ∧
      e = (if d.HasErrors then LookupExpression.fail { diags := d, rng := rng }
           else LookupExpression.lookup { traversal := t }) ∧
      e.Value traverseAbs ctx =
        (if d.HasErrors then (Value.DynamicVal, d) else traverseAbs t ctx) ∧
      e.Variables = (if d.HasErrors then [] else [t]) ∧
      e.Range = (if d.HasErrors then rng else t.SourceRange) ∧
      e.StartRange = (if d.HasErrors then rng else t.SourceRange) := by
  cases herr : d.HasErrors with
  | true =>
    refine ⟨LookupExpression.fail { diags := d, rng := rng }, ?_, ?_, ?_, ?_, ?_, ?_⟩
    · simp only [VariableLookupExpr, h, herr, ↓reduceIte]
    all_goals simp [LookupExpression.Value, LookupExpression.Variables, LookupExpression.Range,
      LookupExpression.StartRange, failExpr.Value, failExpr.Variables, failExpr.Range,
      failExpr.StartRange]
  | false =>
    refine ⟨LookupExpression.lookup { traversal := t }, ?_, ?_, ?_, ?_, ?_, ?_⟩
    · simp only [VariableLookupExpr, h, herr, Bool.false_eq_true, ↓reduceIte]
    all_goals simp [LookupExpression.Value, LookupExpression.Variables, LookupExpression.Range,
      LookupExpression.StartRange, variableLookupExpr.Value, variableLookupExpr.Variables,
      variableLookupExpr.Range, variableLookupExpr.StartRange]

/-- C14 at the name "abc" in a range from byte 0, with a context-independent
traversal application. -/
theorem c14_lookup_agrees_witness :
    ∃ e, VariableLookupExpr utf8Clusters 10 (ascii "abc") ⟨"main.tf", ⟨1, 1, 0⟩, ⟨1, 4, 3⟩⟩ =
        some e ∧
      e = (if Diagnostics.HasErrors [] then
             LookupExpression.fail { diags := [], rng := ⟨"main.tf", ⟨1, 1, 0⟩, ⟨1, 4, 3⟩⟩ }
           else LookupExpression.lookup { traversal :=
             [Traverser.TraverseRoot (ascii "abc") ⟨"main.tf", ⟨1, 1, 0⟩, ⟨1, 4, 3⟩⟩] }) ∧
      e.Value (fun _ (_ : Nat) => (Value.DynamicVal, [])) 0 =
        (if Diagnostics.HasErrors [] then (Value.DynamicVal, [])
         else (fun _ (_ : Nat) => (Value.DynamicVal, []))
           [Traverser.TraverseRoot (ascii "abc") ⟨"main.tf", ⟨1, 1, 0⟩, ⟨1, 4, 3⟩⟩] 0) ∧
      e.Variables = (if Diagnostics.HasErrors [] then []
        else [[Traverser.TraverseRoot (ascii "abc") ⟨"main.tf", ⟨1, 1, 0⟩, ⟨1, 4, 3⟩⟩]]) ∧
      e.Range = (if Diagnostics.HasErrors [] then ⟨"main.tf", ⟨1, 1, 0⟩, ⟨1, 4, 3⟩⟩
        else Traversal.SourceRange
          [Traverser.TraverseRoot (ascii "abc") ⟨"main.tf", ⟨1, 1, 0⟩, ⟨1, 4, 3⟩⟩]) ∧
      e.StartRange = (if Diagnostics.HasErrors [] then ⟨"main.tf", ⟨1, 1, 0⟩, ⟨1, 4, 3⟩⟩
        else Traversal.SourceRange
          [Traverser.TraverseRoot (ascii "abc") ⟨"main.tf", ⟨1, 1, 0⟩, ⟨1, 4, 3⟩⟩]) :=
  c14_lookup_agrees (fun _ (_ : Nat) => (Value.DynamicVal, [])) utf8Clusters 10 (ascii "abc")
    ⟨"main.tf", ⟨1, 1, 0⟩, ⟨1, 4, 3⟩⟩
    [Traverser.TraverseRoot (ascii "abc") ⟨"main.tf", ⟨1, 1, 0⟩, ⟨1, 4, 3⟩⟩] [] 0 (by decide)

/-- C15: evaluating a failing placeholder does not depend on the context:
for every `failExpr` and every two contexts the two values are equal, and
equal to the dynamic value with the diagnostics the placeholder was built
with; the same holds through the `hcl.Expression` interface. -/
theorem c15_failExpr_context_independent {Ctx : Type} (traverseAbs : TraverseAbs Ctx)
    (f : failExpr) (c1 c2 : Ctx) :
    f.Value c1 = f.Value c2 ∧ f.Value c1 = (Value.DynamicVal, f.diags) ∧
    (LookupExpression.fail f).Value traverseAbs c1 =
      (LookupExpression.fail f).Value traverseAbs c2 ∧
    (LookupExpression.fail f).Value traverseAbs c1 = (Value.DynamicVal, f.diags) :=
  ⟨rfl, rfl, rfl, rfl⟩

/-- C16: whenever `VariableTraversal` returns, either it returns no
diagnostics and a traversal of length at least 1 whose first step is a
root-name step and whose later steps are all index steps with a string key,
or it returns a nil traversal together with one diagnostic of error severity;
an empty traversal never comes without diagnostics. -/
theorem c16_traversal_invariant (seg : Segmentation) (fuel : Nat) (name : Bytes) (rng : Range)
    (t : Traversal) (d : Diagnostics) (h : VariableTraversal seg fuel name rng = some (t, d)) :
    (d = [] ∧ 1 ≤ t.length ∧ t.rootThenIndexes = true) ∨
    (t = [] ∧ d.HasErrors = true ∧ d.length = 1) := by
  unfold VariableTraversal at h
  simp only at h
  cases hl : VariableTraversal.loop seg fuel
      (NewRangeScannerFragment name rng.Filename rng.Start scanAttrSteps) [] with
  | none =>
    rw [hl] at h
    cases h
  | some ret =>
    rw [hl] at h
    simp only at h
    have hshape := loop_shape seg fuel _ [] ret (Or.inl rfl) hl
    split at h
    · simp only [Option.some.injEq, Prod.mk.injEq] at h
      obtain ⟨rfl, rfl⟩ := h
      exact Or.inr ⟨rfl, rfl, rfl⟩
    · rename_i hlen
      simp only [Option.some.injEq, Prod.mk.injEq] at h
      obtain ⟨rfl, rfl⟩ := h
      refine Or.inl ⟨rfl, by omega, ?_⟩
      rcases hshape with hnil | hshape
      · exact absurd (by rw [hnil]; rfl) hlen
      · exact hshape

/-- C16 at the name "abc" in a range from byte 0. -/
theorem c16_traversal_invariant_witness :
    (([] : Diagnostics) = [] ∧
      1 ≤ [Traverser.TraverseRoot (ascii "abc") ⟨"main.tf", ⟨1, 1, 0⟩, ⟨1, 4, 3⟩⟩].length ∧
      Traversal.rootThenIndexes
        [Traverser.TraverseRoot (ascii "abc") ⟨"main.tf", ⟨1, 1, 0⟩, ⟨1, 4, 3⟩⟩] = true) ∨
    ([Traverser.TraverseRoot (ascii "abc") ⟨"main.tf", ⟨1, 1, 0⟩, ⟨1, 4, 3⟩⟩] = [] ∧
      Diagnostics.HasErrors [] = true ∧ ([] : Diagnostics).length = 1) :=
  c16_traversal_invariant utf8Clusters 10 (ascii "abc") ⟨"main.tf", ⟨1, 1, 0⟩, ⟨1, 4, 3⟩⟩
    [Traverser.TraverseRoot (ascii "abc") ⟨"main.tf", ⟨1, 1, 0⟩, ⟨1, 4, 3⟩⟩] [] (by decide)

/-! ## Line starts, range width and the position round trip: C17, C20 -/

theorem advanceStep_column (n : Nat) (st : Advance) (g : Bytes)
    (hg : g.head? = some 13 ∨ g.head? = some 10) : (advanceStep n st g).new.Column = 1 := by
  have hne : g.length ≠ 0 := by
    cases g with
    | nil => simp at hg
    | cons x xs => simp
  unfold advanceStep
  simp only [hne, ne_eq, not_false_eq_true, hg, and_self, ↓reduceIte]

theorem advance_fold_column (n : Nat) (l : List Bytes) (g : Bytes) (st : Advance)
    (hlast : l.getLast? = some g) (hg : g.head? = some 13 ∨ g.head? = some 10) :
    (l.foldl (advanceStep n) st).new.Column = 1 := by
  obtain ⟨ys, rfl⟩ := List.getLast?_eq_some_iff.mp hlast
  simp only [List.foldl_append, List.foldl_cons, List.foldl_nil]
  exact advanceStep_column n _ g hg

theorem IndexByte_getLast (c : Nat) : ∀ (data : Bytes) (i : Nat), IndexByte data c = some i →
    (data.take (i + 1)).getLast? = some c
  | [], i, h => by simp [IndexByte] at h
  | b :: rest, i, h => by
    unfold IndexByte at h
    split at h
    · rename_i hbc
      cases h
      simp [hbc]
    · cases hi : IndexByte rest c with
      | none => simp [hi] at h
      | some j =>
        simp [hi] at h
        subst h
        have ih := IndexByte_getLast c rest j hi
        obtain ⟨ys, hys⟩ := List.getLast?_eq_some_iff.mp ih
        rw [List.take_succ_cons, hys, ← List.cons_append]
        exact List.getLast?_concat _

/-- After a successful `Scan` for lines, the range starts where the scanner
stood, and the scanner then stands at column 1 or at the end of the buffer. -/
theorem Scan_lines_column (seg : Segmentation) (hseg : seg.Lawful) (hnl : seg.NewlineBreak)
    (sc sc1 : RangeScanner) (hcb : sc.cb = ScanLines) (h : sc.Scan seg = some sc1) :
    sc1.cur.Start = sc.pos ∧ (sc1.pos.Column = 1 ∨ sc1.b.length ≤ sc1.pos.Byte) := by
  by_cases hlt : sc.pos.Byte < sc.b.length
  · have hne : sc.b.drop sc.pos.Byte ≠ [] := by
      intro h0
      have := congrArg List.length h0
      simp at this
      omega
    have hlen0 : (sc.b.drop sc.pos.Byte).length ≠ 0 :=
      fun h0 => hne (List.length_eq_zero.mp h0)
    cases hi : IndexByte (sc.b.drop sc.pos.Byte) 10 with
    | none =>
      have he : ScanLines (sc.b.drop sc.pos.Byte) =
          ((sc.b.drop sc.pos.Byte).length, some (dropCR (sc.b.drop sc.pos.Byte))) := by
        unfold ScanLines
        rw [if_neg hlen0, hi]
      rw [Scan_of_token seg sc _ _ hlt (by rw [hcb, he])] at h
      cases h
      refine ⟨rfl, Or.inr ?_⟩
      have htake : (sc.b.drop sc.pos.Byte).take (sc.b.drop sc.pos.Byte).length =
          sc.b.drop sc.pos.Byte := List.take_length _
      simp only [advance_fold_byte, htake, (hseg _).1]
      simp only [List.length_drop]
      omega
    | some i =>
      have he : ScanLines (sc.b.drop sc.pos.Byte) =
          (i + 1, some (dropCR ((sc.b.drop sc.pos.Byte).take i))) := by
        unfold ScanLines
        rw [if_neg hlen0, hi]
      rw [Scan_of_token seg sc _ _ hlt (by rw [hcb, he])] at h
      cases h
      refine ⟨rfl, Or.inl ?_⟩
      obtain ⟨g, hg, hhead⟩ := hnl _ (IndexByte_getLast 10 _ i hi)
      exact advance_fold_column _ _ g _ hg hhead
  · rw [Scan_none_of_ge seg sc (by omega)] at h
    cases h

theorem scanAll_start_column (seg : Segmentation) (hseg : seg.Lawful) (hnl : seg.NewlineBreak) :
    ∀ (fuel : Nat) (sc : RangeScanner), sc.cb = ScanLines →
      (sc.pos.Column = 1 ∨ sc.b.length ≤ sc.pos.Byte) →
      ∀ s ∈ scanAll seg fuel sc, s.cur.Start.Column = 1
  | 0, _, _, _ => by simp [scanAll]
  | fuel + 1, sc, hcb, hpos => by
    unfold scanAll
    cases hs : sc.Scan seg with
    | none => simp
    | some sc1 =>
      obtain ⟨hcb1, _, _, _, hlt⟩ := Scan_lines_some seg hseg sc sc1 hcb hs
      obtain ⟨hstart, hnext⟩ := Scan_lines_column seg hseg hnl sc sc1 hcb hs
      intro s hmem
      simp only [List.mem_cons] at hmem
      rcases hmem with rfl | hmem
      · rw [hstart]
        rcases hpos with h1 | h1
        · exact h1
        · omega
      · exact scanAll_start_column seg hseg hnl fuel sc1 hcb1 hnext s hmem

/-- Scanning from column 1, every line of the line scan starts at column 1. -/
theorem targetLine_column (seg : Segmentation) (hseg : seg.Lawful) (hnl : seg.NewlineBreak)
    (filename : String) (src : Bytes) (srcPos : Pos) (line : Int) (l : Range × Bytes)
    (hcol : srcPos.Column = 1) (h : targetLine seg filename src srcPos line = some l) :
    l.1.Start.Column = 1 := by
  unfold targetLine at h
  have hmem := List.mem_of_find?_eq_some h
  unfold lineScan at hmem
  simp only [List.mem_map] at hmem
  obtain ⟨s, hs, rfl⟩ := hmem
  exact scanAll_start_column seg hseg hnl src.length _ rfl (Or.inl hcol) s hs

theorem utf8Clusters_newlineBreak : Segmentation.NewlineBreak utf8Clusters := by
  intro d
  induction d with
  | nil => simp
  | cons b rest ih =>
    intro hlast
    unfold utf8Clusters
    cases hrest : rest with
    | nil =>
      subst hrest
      simp only [List.getLast?_singleton, Option.some.injEq] at hlast
      subst hlast
      simp [utf8Clusters]
    | cons r rs =>
      have hlast2 : rest.getLast? = some 10 := by
        rw [hrest] at hlast ⊢
        rw [List.getLast?_cons_cons] at hlast
        exact hlast
      obtain ⟨g, hg, hhead⟩ := ih hlast2
      rw [← hrest]
      cases hc : utf8Clusters rest with
      | nil =>
        rw [hc] at hg
        simp at hg
      | cons g0 gs =>
        rw [hc] at hg
        simp only
        cases hgs : gs with
        | nil =>
          subst hgs
          simp only [List.getLast?_singleton, Option.some.injEq] at hg
          subst hg
          have hnc : isContinuation (g0.headD 0) = false := by
            cases g0 with
            | nil => simp at hhead
            | cons x xs =>
              simp only [List.head?_cons, Option.some.injEq] at hhead
              rcases hhead with rfl | rfl <;> simp [isContinuation]
          rw [hnc]
          simp only [Bool.false_eq_true, ↓reduceIte]
          split
          · exact ⟨_, rfl, Or.inl rfl⟩
          · exact ⟨g0, by simp, hhead⟩
        | cons g1 gs1 =>
          subst hgs
          have hg' : (g1 :: gs1).getLast? = some g := by
            rw [List.getLast?_cons_cons] at hg
            exact hg
          refine ⟨g, ?_, hhead⟩
          split
          · rw [List.getLast?_cons_cons]
            exact hg'
          · split
            · rw [List.getLast?_cons_cons]
              exact hg'
            · rw [List.getLast?_cons_cons, List.getLast?_cons_cons]
              exact hg'

/-- C17, on the code: a derived range can have zero width. For the text
"ab" scanned from the initial position, the old position line 1, byte column
3 (the end of the line) gives a range that is not the sentinel and whose end
equals its start; so does line 2, byte column 1 in a text whose second line
is empty. In both `End.Byte > Start.Byte` fails. -/
theorem c17_zero_width_at_line_end :
    rangeHILtoHCL utf8Clusters 3 ⟨3, 1, "main.tf"⟩ (ascii "ab") ⟨1, 1, 0⟩ =
      some ⟨"main.tf", ⟨1, 3, 2⟩, ⟨1, 3, 2⟩⟩ ∧
    rangeHILtoHCL utf8Clusters 5 ⟨1, 2, "main.tf"⟩ (ascii "a\n\nb") ⟨1, 1, 0⟩ =
      some ⟨"main.tf", ⟨2, 1, 2⟩, ⟨2, 1, 2⟩⟩ ∧
    ¬ ((⟨1, 3, 2⟩ : Pos).Byte > (⟨1, 3, 2⟩ : Pos).Byte) ∧
    ¬ ((⟨2, 1, 2⟩ : Pos).Byte > (⟨2, 1, 2⟩ : Pos).Byte) := by
  refine ⟨by decide, by decide, by decide, by decide⟩

/-- C20, as stated, fails: in the empty text the initial position (line 1,
column 1, byte 0) is a true location (its line starts at byte 0 and has
length 0), but the scan of the empty text yields no line and the round trip
returns the all-zero position. The same happens at the end of a text that
ends in a line feed. -/
theorem c20_counterexample :
    posHILtoHCL utf8Clusters 1 (posHCLtoHIL "main.tf" ⟨1, 1, 0⟩) [] InitialPos =
      some ⟨0, 0, 0⟩ ∧
    posHILtoHCL utf8Clusters 1 (posHCLtoHIL "main.tf" ⟨1, 1, 0⟩) [] InitialPos ≠
      some ⟨1, 1, 0⟩ ∧
    posHILtoHCL utf8Clusters 3 (posHCLtoHIL "main.tf" ⟨2, 1, 2⟩) (ascii "a\n") InitialPos =
      some ⟨0, 0, 0⟩ := by
  refine ⟨by decide, by decide, by decide⟩

/-- C20, amended: for source text of single-byte characters scanned from
the initial position and every position `p` on a line that the scan yields
(start line number `p.Line`), with `1 ≤ p.Column`, `p.Column - 1` at most the
byte length of that line, and `p.Byte` the byte offset of the start of the
line plus `p.Column - 1`, the round trip `posHILtoHCL (posHCLtoHIL filename p)`
returns `p`. -/
theorem c20_position_round_trip (seg : Segmentation) (hseg : seg.Lawful)
    (hascii : seg.AsciiSingle) (hnl : seg.NewlineBreak) (fuel : Nat) (filename : String)
    (src : Bytes) (p : Pos) (lineRng : Range) (lineSrc : Bytes)
    (hsrc : ∀ b ∈ src, b < 128) (hfuel : src.length < fuel)
    (hline : targetLine seg filename src InitialPos p.Line = some (lineRng, lineSrc))
    (hcol : 1 ≤ p.Column) (hlen : p.Column - 1 ≤ lineSrc.length)
    (hbyte : p.Byte = lineRng.Start.Byte + (p.Column - 1)) :
    posHILtoHCL seg fuel (posHCLtoHIL filename p) src InitialPos = some p := by
  have hl : (lineRng.Start.Line : Int) = (p.Line : Int) :=
    targetLine_line seg _ src InitialPos _ _ hline
  have hc1 : lineRng.Start.Column = 1 :=
    targetLine_column seg hseg hnl filename src InitialPos _ _ rfl hline
  have hbytes := targetLine_bytes seg hseg _ src InitialPos _ _ hline
  have hofs : ((p.Column : Int) - 1).toNat = p.Column - 1 := by omega
  have hpre : ∀ b ∈ lineSrc.take (p.Column - 1), b < 128 ∧ b ≠ 10 := by
    intro b hb
    have := hbytes b (List.mem_of_mem_take hb)
    exact ⟨hsrc b this.1, this.2⟩
  have hcount : TokenCount seg (lineSrc.take (p.Column - 1)) = p.Column - 1 := by
    unfold TokenCount
    rw [hascii _ hpre, List.length_take]
    omega
  have hr := rangeHILtoHCL_inside seg hseg fuel (posHCLtoHIL filename p) src InitialPos
    lineRng lineSrc hfuel hline (by simp only [posHCLtoHIL]; omega)
    (by simp only [posHCLtoHIL]; omega)
  unfold posHILtoHCL
  rw [hr]
  simp only [posHCLtoHIL, Option.map_some', hofs, hcount, hc1, Option.some.injEq]
  have hline2 : lineRng.Start.Line = p.Line := by omega
  cases p with
  | mk line col byte =>
    simp only at hbyte hcol hline2
    simp only [Pos.mk.injEq]
    omega

/-- C20, amended, at the text "ab", "cde", "f" on three lines and the
position line 2, column 3, byte 5. -/
theorem c20_position_round_trip_witness :
    posHILtoHCL utf8Clusters 20 (posHCLtoHIL "main.tf" ⟨2, 3, 5⟩) (ascii "ab\ncde\nf")
      InitialPos = some ⟨2, 3, 5⟩ :=
  c20_position_round_trip utf8Clusters utf8Clusters_lawful utf8Clusters_asciiSingle
    utf8Clusters_newlineBreak 20 "main.tf" (ascii "ab\ncde\nf") ⟨2, 3, 5⟩
    ⟨"main.tf", ⟨2, 1, 3⟩, ⟨2, 4, 6⟩⟩ (ascii "cde")
    (by decide) (by decide) (by decide) (by decide) (by decide) (by decide)

end Hilbridge
